import Mathlib

/-!
# Shallow embedding of the intern roster scheduler

This file embeds the assignment engine of `schedulestremlit.py`:

* `select_optimised_leave` — the leave-preference resolver;
* `generate_roster` — off-day pair allocation, daily Cover/Late allocation,
  and the fairness summary aggregator.

Dates are modelled as integers counting days; `weekday d = d % 7` with the
convention `0 = Monday, …, 5 = Saturday, 6 = Sunday` (Python's
`date.weekday()` numbering).  `pd.date_range(s, e)` becomes the inclusive
integer interval `[s, e]`.  The pandas `shifts` table becomes a function
from dates to a pair of optional names; `NaN` cells are `none`.  The
`defaultdict` of fairness counters becomes a total function
`String → Counts` together with an explicit list `touched` of the keys that
have been materialised (a `defaultdict` creates an entry whenever a key is
read, e.g. by the `key=` lambda of `min`/`sorted`, and the summary table has
exactly the materialised keys as rows).  An uncaught `IndexError`
(`sorted([])[0]` on an empty availability list) is modelled by the engine
returning `none`.  The module-level holiday constant and Python's seeded
`random.shuffle` are passed as explicit parameters (`holidays`, `shuffle`);
`shuffle` is an arbitrary function, and theorems that need it to behave
like a real shuffle assume its output is a permutation of its input.
-/

namespace Roster

/-- Python's `date.weekday()`: `0 = Monday, …, 5 = Saturday, 6 = Sunday`. -/
def weekday (d : Int) : Int := d % 7

/-- `pd.date_range(start=s, end=e)`: the inclusive list of dates `s, s+1, …, e`. -/
def dateRange (s e : Int) : List Int :=
  (List.range (e + 1 - s).toNat).map (fun (i : Nat) => s + (i : Int))

/-- `d - timedelta(days=d.weekday())`: the Monday of `d`'s week. -/
def mondayOf (d : Int) : Int := d - weekday d

/-- One person's ranked leave-week preferences (`leave_preferences[name]`). -/
structure LeavePrefs where
  first : Int
  second : Int
deriving Repr, DecidableEq

/-- An entry of the resolver's `final_leave` list / of the `leave_dates`
input of `generate_roster`: `{"name": …, "start": …, "choice": …}`. -/
structure LeaveChoiceEntry where
  name : String
  start : Int
  choice : String
deriving Repr, DecidableEq

/-- `[entry["name"] for entry in final_leave]`. -/
def assignedNames (final : List LeaveChoiceEntry) : List String :=
  final.map (·.name)

/-- `pd.date_range(start, end - 4, freq='W-MON')`: the Mondays that leave at
least 5 trailing days inside the range. -/
def leaveWeekStarts (s e : Int) : List Int :=
  (dateRange s (e - 4)).filter (fun d => weekday d == 0)

/-- The `candidates` list built for one `week_start` inside
`select_optimised_leave`: every not-yet-assigned intern, in input order,
paired with the rank of their matching choice (first choice tested before
second **within** one intern). -/
def leaveCandidates (interns : List String) (prefs : String → LeavePrefs)
    (final : List LeaveChoiceEntry) (weekStart : Int) : List (String × String) :=
  interns.filterMap (fun name =>
    if (assignedNames final).contains name then none
    else if mondayOf (prefs name).first = weekStart then some (name, "First")
    else if mondayOf (prefs name).second = weekStart then some (name, "Second")
    else none)

/-- The body of the `for week_start in mondays` loop of
`select_optimised_leave`. -/
def leaveWeekStep (interns : List String) (prefs : String → LeavePrefs)
    (final : List LeaveChoiceEntry) (weekStart : Int) : List LeaveChoiceEntry :=
  match leaveCandidates interns prefs final weekStart with
  | (name, choice) :: _ => final ++ [⟨name, weekStart, choice⟩]
  | [] =>
    match interns.filter (fun name => !(assignedNames final).contains name) with
    | [] => final
    | r :: _ => final ++ [⟨r, weekStart, "Assigned"⟩]

/-- `select_optimised_leave(interns, leave_preferences, start_date, end_date)`. -/
def select_optimised_leave (interns : List String) (prefs : String → LeavePrefs)
    (s e : Int) : List LeaveChoiceEntry :=
  (leaveWeekStarts s e).foldl (leaveWeekStep interns prefs) []

/-! ## The roster engine -/

/-- One row of the `shifts` table: the optional Cover and Late cells. -/
structure RosterCell where
  cover : Option String
  late : Option String
deriving Repr, DecidableEq

/-- One person's fairness counters (`shift_counts[name]`). -/
structure Counts where
  cover : Nat
  late : Nat
  free : Nat
deriving Repr, DecidableEq

/-- One row of an uploaded previous summary (CSV, indexed by name). -/
structure PriorRow where
  name : String
  cover : Nat
  late : Nat
  freeWeekends : Nat
deriving Repr, DecidableEq

/-- A previous summary: its rows, and whether a `FreeWeekends` column is
present (the source checks `"FreeWeekends" in previous_summary.columns`). -/
structure Prior where
  rows : List PriorRow
  hasFreeCol : Bool
deriving Repr, DecidableEq

/-- Seeding of `shift_counts` from the optional previous summary
(every other name keeps the `defaultdict` default `{0, 0, 0}`). -/
def seedCounts (prior : Option Prior) : String → Counts :=
  match prior with
  | none => fun _ => ⟨0, 0, 0⟩
  | some p =>
      p.rows.foldl
        (fun c row => fun n =>
          if n = row.name then
            ⟨row.cover, row.late, if p.hasFreeCol then row.freeWeekends else 0⟩
          else c n)
        (fun _ => ⟨0, 0, 0⟩)

/-- `days = [start + timedelta(days=i) for i in range(5)]`. -/
def leaveDays (start : Int) : List Int :=
  (List.range 5).map (fun (i : Nat) => start + (i : Int))

/-- `leave_map[name]`: the union of the 5-day blocks of every leave entry
carrying that name (membership in the source's set of dates). -/
def leaveMapOf (leave : Option (List LeaveChoiceEntry)) (name : String) : List Int :=
  match leave with
  | none => []
  | some l => (l.filter (fun en => en.name == name)).flatMap (fun en => leaveDays en.start)

/-- One element of the engine's `leave_entries` output list:
`{"name": …, "start": …, "end": start + 4, "choice": …}`. -/
structure LeaveOut where
  name : String
  start : Int
  stop : Int
  choice : String
deriving Repr, DecidableEq

/-- The `leave_entries` list built from the `leave_dates` input. -/
def leaveEntriesOf (leave : Option (List LeaveChoiceEntry)) : List LeaveOut :=
  match leave with
  | none => []
  | some l => l.map (fun en => ⟨en.name, en.start, en.start + 4, en.choice⟩)

/-- Line 66: the weekend days of the range. -/
def weekendsIn (s e : Int) : List Int :=
  (dateRange s e).filter (fun d => weekday d == 5 || weekday d == 6)

/-- Line 67: the holidays of the range. -/
def holidayDaysIn (s e : Int) (holidays : List Int) : List Int :=
  (dateRange s e).filter (fun d => holidays.contains d)

/-- Line 68: `sorted(set(weekends + holiday_days))`. -/
def offDayCandidates (s e : Int) (holidays : List Int) : List Int :=
  List.insertionSort (· ≤ ·) ((weekendsIn s e ++ holidayDaysIn s e holidays).dedup)

/-- Lines 69–72: the Saturday-anchored off-day pairs. -/
def offDayPairs (s e : Int) (holidays : List Int) : List (Int × Int) :=
  ((offDayCandidates s e holidays).filter
      (fun d => weekday d == 5 && (offDayCandidates s e holidays).contains (d + 1))).map
    (fun d => (d, d + 1))

/-- The mutable state of a run: the `shifts` table, the `shift_counts`
values, and the set (kept as a duplicate-free list) of names for which the
`defaultdict` has materialised an entry. -/
structure EngineState where
  shifts : Int → RosterCell
  counts : String → Counts
  touched : List String

/-- Materialise a `defaultdict` key. -/
def touch (t : List String) (n : String) : List String :=
  if t.contains n then t else t ++ [n]

/-- Materialise every key of a list (e.g. all arguments of a `key=` lambda). -/
def touchAll (t : List String) (l : List String) : List String :=
  l.foldl touch t

/-- `i in shifts.loc[day].values` for a single row. -/
def cellHas (c : RosterCell) (i : String) : Bool :=
  c.cover == some i || c.late == some i

/-- Python's `min(l, key=key)` (first element attaining the minimum;
`none` on an empty list, where Python would raise). -/
def pymin (key : α → Nat) : List α → Option α
  | [] => none
  | x :: xs => some (xs.foldl (fun b a => if key a < key b then a else b) x)

/-- `sorted(l, key=key)[0]` via a stable sort (Python's `sorted` is stable);
`none` models the `IndexError` on an empty list. -/
def pySortedHead (key : α → Nat) (l : List α) : Option α :=
  (List.insertionSort (fun a b => key a ≤ key b) l).head?

/-- Line 76: the `free_interns` list for one off pair. -/
def freeInternsOn (interns : List String) (leave : Option (List LeaveChoiceEntry))
    (st : EngineState) (pair : Int × Int) : List String :=
  interns.filter (fun i =>
    !(cellHas (st.shifts pair.1) i || cellHas (st.shifts pair.2) i) &&
    !((leaveMapOf leave i).contains pair.1 || (leaveMapOf leave i).contains pair.2))

/-- Lines 75–81: the body of the `for pair in off_day_pairs` loop. -/
def offStep (interns : List String) (leave : Option (List LeaveChoiceEntry))
    (st : EngineState) (pair : Int × Int) : EngineState :=
  let free := freeInternsOn interns leave st pair
  match pymin (fun i => (st.counts i).free) free with
  | none => st
  | some intern =>
      { shifts := fun d =>
          if d = pair.1 ∨ d = pair.2 then ⟨some intern, some intern⟩ else st.shifts d
        counts := fun n =>
          if n = intern then
            { st.counts n with free := (st.counts n).free + 1 }
          else st.counts n
        touched := touchAll st.touched free }

/-- Line 84 / line 91: the availability list for one day. -/
def availOn (interns : List String) (leave : Option (List LeaveChoiceEntry))
    (st : EngineState) (day : Int) : List String :=
  interns.filter (fun i =>
    !(leaveMapOf leave i).contains day && !cellHas (st.shifts day) i)

/-- Lines 86–89: fill the Cover slot of `day` if it is still empty;
`none` models the crash on an empty availability list. -/
def coverFill (interns : List String) (leave : Option (List LeaveChoiceEntry))
    (st : EngineState) (day : Int) : Option EngineState :=
  if (st.shifts day).cover.isNone then
    let avail := availOn interns leave st day
    match pySortedHead (fun i => (st.counts i).cover) avail with
    | none => none
    | some c => some
        { shifts := fun d =>
            if d = day then { st.shifts d with cover := some c } else st.shifts d
          counts := fun n =>
            if n = c then { st.counts n with cover := (st.counts n).cover + 1 }
            else st.counts n
          touched := touchAll st.touched avail }
  else some st

/-- Lines 93–96: fill the Late slot of `day` if it is still empty. -/
def lateFill (interns : List String) (leave : Option (List LeaveChoiceEntry))
    (st : EngineState) (day : Int) : Option EngineState :=
  if (st.shifts day).late.isNone then
    let avail := availOn interns leave st day
    match pySortedHead (fun i => (st.counts i).late) avail with
    | none => none
    | some c => some
        { shifts := fun d =>
            if d = day then { st.shifts d with late := some c } else st.shifts d
          counts := fun n =>
            if n = c then { st.counts n with late := (st.counts n).late + 1 }
            else st.counts n
          touched := touchAll st.touched avail }
  else some st

/-- Lines 83–96: the body of the `for day in date_range` loop. -/
def dailyStep (interns : List String) (leave : Option (List LeaveChoiceEntry))
    (st : EngineState) (day : Int) : Option EngineState :=
  (coverFill interns leave st day).bind (fun st1 => lateFill interns leave st1 day)

/-- The daily allocation loop over the remaining days; `none` as soon as a
day crashes. -/
def dailyLoop (interns : List String) (leave : Option (List LeaveChoiceEntry)) :
    List Int → EngineState → Option EngineState
  | [], st => some st
  | d :: ds, st => (dailyStep interns leave st d).bind (dailyLoop interns leave ds)

/-- One row of the final summary table. -/
structure SummaryRow where
  name : String
  cover : Nat
  late : Nat
  freeWeekends : Nat
  leaveChoice : String
  totalHours : Nat
deriving Repr, DecidableEq

/-- One summary row: the final counters of one person, the `LeaveChoice`
label (line 99–101) and the `TotalHours` column (line 102). -/
def mkSummaryRow (st : EngineState) (leaveOut : List LeaveOut) (n : String) : SummaryRow :=
  { name := n
    cover := (st.counts n).cover
    late := (st.counts n).late
    freeWeekends := (st.counts n).free
    leaveChoice :=
      match leaveOut.find? (fun en => en.name == n) with
      | some en => en.choice
      | none => "None"
    totalHours := (st.counts n).cover * 24 + (st.counts n).late * 12 }

/-- Lines 98–102: `pd.DataFrame(shift_counts).T.sort_index()` plus the
`LeaveChoice` and `TotalHours` columns. -/
def summaryOf (st : EngineState) (leaveOut : List LeaveOut) : List SummaryRow :=
  (List.insertionSort (· ≤ ·) st.touched).map (mkSummaryRow st leaveOut)

/-- The engine's full output: the materialised day-indexed roster table,
the summary table, and the resolved leave schedule. -/
structure RosterResult where
  roster : List (Int × RosterCell)
  summary : List SummaryRow
  leave : List LeaveOut
deriving Repr, DecidableEq

/-- The names materialised in `shift_counts` by the seeding loop
(`for intern in previous_summary.index`). -/
def priorTouched (prior : Option Prior) : List String :=
  match prior with
  | none => []
  | some p => p.rows.foldl (fun t r => touch t r.name) []

/-- The engine state right after the seeding loop: an all-`NaN` `shifts`
table and the seeded counters. -/
def initState (prior : Option Prior) : EngineState :=
  ⟨fun _ => ⟨none, none⟩, seedCounts prior, priorTouched prior⟩

/-- `generate_roster(interns, start_date, end_date, previous_summary,
leave_dates, seed)`.  `holidays` stands for the module-level
`SA_PUBLIC_HOLIDAYS_2025` constant and `shuffle seed` for the
`random.seed(seed); random.shuffle(...)` pair.  `none` models an uncaught
`IndexError` from an exhausted availability list. -/
def generate_roster (interns : List String) (s e : Int)
    (previousSummary : Option Prior) (leaveDates : Option (List LeaveChoiceEntry))
    (holidays : List Int) (shuffle : Nat → List (Int × Int) → List (Int × Int))
    (seed : Nat) : Option RosterResult :=
  let leaveOut := leaveEntriesOf leaveDates
  let pairs := shuffle seed (offDayPairs s e holidays)
  let st1 := pairs.foldl (offStep interns leaveDates) (initState previousSummary)
  match dailyLoop interns leaveDates (dateRange s e) st1 with
  | none => none
  | some st2 =>
      some ⟨(dateRange s e).map (fun d => (d, st2.shifts d)), summaryOf st2 leaveOut, leaveOut⟩

end Roster

namespace Roster

/-! ## Specification-side selector definitions

These two definitions follow the spec's words ("the first … person
attaining the minimum", "first-choice matches are preferred …"; §4.2–§4.4)
and are compared with the source-derived selectors above. -/

/-- Spec wording: the first element of `l`, in order, whose key is minimal. -/
def firstMinBy (key : α → Nat) (l : List α) : Option α :=
  l.find? (fun x => l.all (fun y => key x ≤ key y))

/-- Spec wording (§4.2, amended): the first not-yet-assigned person in input
order whose first or second choice week matches, tagged with the rank of
that person's own matching choice. -/
def leaveMatcherSpec (interns : List String) (prefs : String → LeavePrefs)
    (final : List LeaveChoiceEntry) (w : Int) : Option (String × String) :=
  ((interns.filter (fun n => !(assignedNames final).contains n &&
      (decide (mondayOf (prefs n).first = w) || decide (mondayOf (prefs n).second = w)))).head?).map
    (fun n => (n, if mondayOf (prefs n).first = w then "First" else "Second"))

/-- Recursive reference form of "first element attaining the minimum". -/
def firstMinRec (key : α → Nat) : List α → Option α
  | [] => none
  | x :: xs => some
      (match firstMinRec key xs with
       | none => x
       | some m => if key m < key x then m else x)

lemma pymin_go (key : α → Nat) (xs : List α) : ∀ x : α,
    xs.foldl (fun b a => if key a < key b then a else b) x =
      match firstMinRec key xs with
      | none => x
      | some m => if key m < key x then m else x := by
  induction xs with
  | nil => intro x; rfl
  | cons a rest ih =>
    intro x
    rw [List.foldl_cons, ih]
    rw [firstMinRec]
    cases hr : firstMinRec key rest with
    | none => simp only
    | some m =>
      simp only
      split_ifs <;> first | rfl | omega

lemma pymin_eq_firstMinRec (key : α → Nat) (l : List α) :
    pymin key l = firstMinRec key l := by
  cases l with
  | nil => rfl
  | cons x xs =>
    show some _ = _
    rw [pymin_go, firstMinRec]

lemma firstMinRec_isMin (key : α → Nat) (l : List α) (m : α)
    (h : firstMinRec key l = some m) : m ∈ l ∧ ∀ y ∈ l, key m ≤ key y := by
  induction l generalizing m with
  | nil => simp [firstMinRec] at h
  | cons x xs ih =>
    rw [firstMinRec] at h
    cases hr : firstMinRec key xs with
    | none =>
      rw [hr] at h
      cases xs with
      | nil =>
        simp at h
        subst h
        simp
      | cons a rest => simp [firstMinRec] at hr
    | some m' =>
      rw [hr] at h
      obtain ⟨hmem, hmin⟩ := ih m' hr
      simp only [Option.some.injEq] at h
      by_cases hc : key m' < key x
      · rw [if_pos hc] at h
        subst h
        refine ⟨List.mem_cons_of_mem _ hmem, ?_⟩
        intro y hy
        rcases List.mem_cons.mp hy with h | h
        · subst h; omega
        · exact hmin y h
      · rw [if_neg hc] at h
        subst h
        refine ⟨List.mem_cons_self _ _, ?_⟩
        intro y hy
        rcases List.mem_cons.mp hy with h | h
        · subst h; omega
        · have := hmin y h; omega

lemma find?_congr_mem {p q : α → Bool} {l : List α} (h : ∀ a ∈ l, p a = q a) :
    l.find? p = l.find? q := by
  induction l with
  | nil => rfl
  | cons x xs ih =>
    have hx := h x (List.mem_cons_self _ _)
    rw [List.find?_cons, List.find?_cons, hx]
    cases q x with
    | true => rfl
    | false => exact ih (fun a ha => h a (List.mem_cons_of_mem _ ha))

lemma firstMinRec_eq_firstMinBy (key : α → Nat) (l : List α) :
    firstMinRec key l = firstMinBy key l := by
  induction l with
  | nil => rfl
  | cons x xs ih =>
    unfold firstMinBy
    rw [List.find?_cons]
    by_cases hx : ∀ y ∈ x :: xs, key x ≤ key y
    · have hb : ((x :: xs).all fun y => decide (key x ≤ key y)) = true := by
        simp only [List.all_eq_true, decide_eq_true_eq]
        exact hx
      rw [hb]
      cases hr : firstMinRec key xs with
      | none =>
        show some (match firstMinRec key xs with
          | none => x
          | some m => if key m < key x then m else x) = some x
        rw [hr]
      | some m =>
        obtain ⟨hmem, _⟩ := firstMinRec_isMin key xs m hr
        have hxm : key x ≤ key m := hx m (List.mem_cons_of_mem _ hmem)
        have hnc : ¬ key m < key x := by omega
        show some (match firstMinRec key xs with
          | none => x
          | some m => if key m < key x then m else x) = some x
        rw [hr]
        show some (if key m < key x then m else x) = some x
        rw [if_neg hnc]
    · have hb : ((x :: xs).all fun y => decide (key x ≤ key y)) = false := by
        refine Bool.eq_false_iff.mpr ?_
        simp only [ne_eq, List.all_eq_true, decide_eq_true_eq]
        exact hx
      rw [hb]
      push_neg at hx
      obtain ⟨y, hy, hylt⟩ := hx
      have hyxs : y ∈ xs := by
        rcases List.mem_cons.mp hy with h | h
        · subst h; omega
        · exact h
      cases hr : firstMinRec key xs with
      | none =>
        cases xs with
        | nil => simp at hyxs
        | cons a rest => simp [firstMinRec] at hr
      | some m =>
        obtain ⟨hmem, hmin⟩ := firstMinRec_isMin key xs m hr
        have hmx : key m < key x := lt_of_le_of_lt (hmin y hyxs) hylt
        show some (match firstMinRec key xs with
          | none => x
          | some m => if key m < key x then m else x) =
          List.find? (fun a => (x :: xs).all fun y => decide (key a ≤ key y)) xs
        rw [hr]
        show some (if key m < key x then m else x) =
          List.find? (fun a => (x :: xs).all fun y => decide (key a ≤ key y)) xs
        rw [if_pos hmx, ← hr, ih]
        unfold firstMinBy
        refine find?_congr_mem ?_
        intro a ha
        by_cases hall : ∀ z ∈ xs, key a ≤ key z
        · have h1 : (xs.all fun z => decide (key a ≤ key z)) = true := by
            simp only [List.all_eq_true, decide_eq_true_eq]
            exact hall
          have h2 : ((x :: xs).all fun z => decide (key a ≤ key z)) = true := by
            simp only [List.all_eq_true, decide_eq_true_eq]
            intro z hz
            rcases List.mem_cons.mp hz with hzx | hzxs
            · subst hzx
              have := hall m hmem
              omega
            · exact hall z hzxs
          rw [h1, h2]
        · have h1 : (xs.all fun z => decide (key a ≤ key z)) = false := by
            refine Bool.eq_false_iff.mpr ?_
            simp only [ne_eq, List.all_eq_true, decide_eq_true_eq]
            exact hall
          have h2 : ((x :: xs).all fun z => decide (key a ≤ key z)) = false := by
            refine Bool.eq_false_iff.mpr ?_
            simp only [ne_eq, List.all_eq_true, decide_eq_true_eq]
            intro hcon
            exact hall (fun z hz => hcon z (List.mem_cons_of_mem _ hz))
          rw [h1, h2]

lemma orderedInsert_head? (r : α → α → Prop) [DecidableRel r] (x : α) (s : List α) :
    (List.orderedInsert r x s).head? = some
      (match s.head? with
       | none => x
       | some y => if r x y then x else y) := by
  cases s with
  | nil => rfl
  | cons y ys =>
    by_cases h : r x y
    · simp [List.orderedInsert, h]
    · simp [List.orderedInsert, h]

lemma pySortedHead_eq_firstMinRec (key : α → Nat) (l : List α) :
    pySortedHead key l = firstMinRec key l := by
  induction l with
  | nil => rfl
  | cons x xs ih =>
    unfold pySortedHead at ih ⊢
    rw [List.insertionSort, orderedInsert_head?, ih]
    rw [firstMinRec]
    cases hr : firstMinRec key xs with
    | none => rfl
    | some m =>
      simp only
      by_cases h : key x ≤ key m
      · have : ¬ key m < key x := by omega
        simp [h, this]
      · have : key m < key x := by omega
        simp [h, this]

lemma filterMap_head?_eq {α β : Type _} {f : α → Option β} {p : α → Bool} {g : α → β}
    (hf : ∀ a, f a = if p a then some (g a) else none) (l : List α) :
    (l.filterMap f).head? = ((l.filter p).head?).map g := by
  induction l with
  | nil => rfl
  | cons a rest ih =>
    rw [List.filterMap_cons, List.filter_cons, hf a]
    cases hp : p a with
    | false =>
      rw [if_neg (by simp), if_neg (by simp)]
      exact ih
    | true =>
      rw [if_pos rfl, if_pos rfl]
      rfl

lemma leaveCandidates_head (interns : List String) (prefs : String → LeavePrefs)
    (final : List LeaveChoiceEntry) (w : Int) :
    (leaveCandidates interns prefs final w).head? = leaveMatcherSpec interns prefs final w := by
  refine filterMap_head?_eq ?_ interns
  intro n
  cases hc : (assignedNames final).contains n with
  | true => simp [hc]
  | false =>
    by_cases h1 : mondayOf (prefs n).first = w
    · simp [hc, h1]
    · by_cases h2 : mondayOf (prefs n).second = w
      · simp [hc, h1, h2]
      · simp [hc, h1, h2]

end Roster

namespace Roster

/-- Claim C3, amended step behaviour: when some not-yet-assigned person
matches a week, `leaveWeekStep` appends an entry for the **first matching
person in input order** (regardless of whether an later person matches by
first choice), tagged with that person's own matching rank. -/
lemma leaveWeekStep_assigns_first_matcher (interns : List String)
    (prefs : String → LeavePrefs) (final : List LeaveChoiceEntry) (w : Int)
    (n : String) (c : String)
    (h : leaveMatcherSpec interns prefs final w = some (n, c)) :
    leaveWeekStep interns prefs final w = final ++ [⟨n, w, c⟩] := by
  have hh := leaveCandidates_head interns prefs final w
  rw [h] at hh
  cases hcand : leaveCandidates interns prefs final w with
  | nil => rw [hcand] at hh; exact absurd hh (by simp)
  | cons a t =>
    obtain ⟨n', c'⟩ := a
    rw [hcand] at hh
    simp only [List.head?_cons, Option.some.injEq, Prod.mk.injEq] at hh
    obtain ⟨h1, h2⟩ := hh
    subst h1
    subst h2
    unfold leaveWeekStep
    rw [hcand]

/-- The leave preferences used in the concrete C3 scenario: person "B" has
first choice in the week of day 7 and second choice in the week of day 0,
person "C" has first choice in the week of day 0. -/
def prefsBC : String → LeavePrefs := fun n => if n = "B" then ⟨7, 0⟩ else ⟨0, 7⟩

end Roster

/-- Claim C3 counterexample: for week-start 0, person "B" (earlier in input
order) matches only by their second choice while person "C" matches by
their first choice, yet the resolver assigns the week to "B" with tag
"Second" — first-choice matches are *not* preferred over second-choice
matches of earlier-listed people. -/
theorem C3_counterexample :
    Roster.select_optimised_leave ["B", "C"] Roster.prefsBC 0 6 =
      [⟨"B", 0, "Second"⟩] := by decide

/-- Claim C3 (corrected): the contested week goes to the first
not-yet-assigned person in input order whose first *or* second choice
matches the week, tagged with that person's own matching rank; an
earlier-listed second-choice matcher beats a later-listed first-choice
matcher. -/
theorem C3_amended (interns : List String)
    (prefs : String → Roster.LeavePrefs) (final : List Roster.LeaveChoiceEntry)
    (w : Int) (n c : String)
    (h : Roster.leaveMatcherSpec interns prefs final w = some (n, c)) :
    Roster.leaveWeekStep interns prefs final w = final ++ [⟨n, w, c⟩] :=
  Roster.leaveWeekStep_assigns_first_matcher interns prefs final w n c h

/-- Claim C3 witness: the amended theorem applied to the concrete scenario
of the counterexample. -/
theorem C3_amended_witness :
    Roster.leaveWeekStep ["B", "C"] Roster.prefsBC [] 0 = [⟨"B", 0, "Second"⟩] :=
  C3_amended ["B", "C"] Roster.prefsBC [] 0 "B" "Second" (by decide)

/-- Claim C7: all three tie-breaks resolve to the earliest element in the
input list's order — Python's `min(..., key=...)` (off-block allocator),
`sorted(..., key=...)[0]` (daily allocator, Cover and Late), and the first
entry of the leave resolver's candidate list all select the first element,
in input order, attaining the minimum key (respectively the first
not-yet-assigned matching person in input order). -/
theorem C7_tie_breaks :
    (∀ (key : String → Nat) (l : List String),
        Roster.pymin key l = Roster.firstMinBy key l) ∧
    (∀ (key : String → Nat) (l : List String),
        Roster.pySortedHead key l = Roster.firstMinBy key l) ∧
    (∀ (interns : List String) (prefs : String → Roster.LeavePrefs)
        (final : List Roster.LeaveChoiceEntry) (w : Int),
        (Roster.leaveCandidates interns prefs final w).head? =
          Roster.leaveMatcherSpec interns prefs final w) :=
  ⟨fun key l => (Roster.pymin_eq_firstMinRec key l).trans
      (Roster.firstMinRec_eq_firstMinBy key l),
   fun key l => (Roster.pySortedHead_eq_firstMinRec key l).trans
      (Roster.firstMinRec_eq_firstMinBy key l),
   fun interns prefs final w => Roster.leaveCandidates_head interns prefs final w⟩

/-- Claim C9: the engine is a pure function of its inputs — two runs with
identical person list, date range, prior summary, leave input, holiday set
and the same seeded shuffle produce identical roster, summary and leave
outputs. -/
theorem C9_reproducibility (i₁ i₂ : List String) (s₁ s₂ e₁ e₂ : Int)
    (p₁ p₂ : Option Roster.Prior) (l₁ l₂ : Option (List Roster.LeaveChoiceEntry))
    (h₁ h₂ : List Int)
    (sh₁ sh₂ : Nat → List (Int × Int) → List (Int × Int))
    (sd₁ sd₂ : Nat)
    (hi : i₁ = i₂) (hs : s₁ = s₂) (he : e₁ = e₂) (hp : p₁ = p₂) (hl : l₁ = l₂)
    (hh : h₁ = h₂) (hsh : sh₁ = sh₂) (hsd : sd₁ = sd₂) :
    Roster.generate_roster i₁ s₁ e₁ p₁ l₁ h₁ sh₁ sd₁ =
      Roster.generate_roster i₂ s₂ e₂ p₂ l₂ h₂ sh₂ sd₂ := by
  subst hi; subst hs; subst he; subst hp; subst hl; subst hh; subst hsh; subst hsd
  rfl

/-- Claim C9 witness: the theorem applied at a concrete input. -/
theorem C9_witness :
    Roster.generate_roster ["A", "B"] 0 0 none none [] (fun _ l => l) 42 =
      Roster.generate_roster ["A", "B"] 0 0 none none [] (fun _ l => l) 42 :=
  C9_reproducibility ["A", "B"] ["A", "B"] 0 0 0 0 none none none none [] []
    (fun _ l => l) (fun _ l => l) 42 42 rfl rfl rfl rfl rfl rfl rfl rfl

/-- Claim C2: at the failing input — a single intern "A" on leave covering
the single Monday of the range — the availability list for the Cover slot
is empty and the engine aborts with an uncaught `IndexError`
(`sorted(available, ...)[0]` on an empty list, modelled as `none`); it does
*not* return a recoverable error value naming the date and the role. -/
theorem C2_crash :
    Roster.generate_roster ["A"] 0 0 none (some [⟨"A", 0, "First"⟩]) []
      (fun _ l => l) 42 = none := by decide

/-- Claim C1 counterexample: with a single intern and a Saturday–Sunday
range, the off-block allocator records the *same* person in both the Cover
and the Late role on both weekend dates, so Cover-person = Late-person on
date 5 of the completed run. -/
theorem C1_counterexample :
    Roster.generate_roster ["A"] 5 6 none none [] (fun _ l => l) 42 =
      some ⟨[(5, ⟨some "A", some "A"⟩), (6, ⟨some "A", some "A"⟩)],
        [⟨"A", 0, 0, 1, "None", 0⟩], []⟩ := by decide

/-- Claim C5 counterexample: with interns "A", "B", "C" over a
Monday–Friday range and "A" on leave for the whole range, "A" is never
eligible, its `defaultdict` entry is never created, and the summary has
rows only for "B" and "C" — not one row per supplied person. -/
theorem C5_counterexample :
    (Roster.generate_roster ["A", "B", "C"] 0 4 none (some [⟨"A", 0, "First"⟩])
        [] (fun _ l => l) 42).map (fun r => r.summary.map (fun row => row.name)) =
      some ["B", "C"] := by with_unfolding_all rfl

namespace Roster

/-! ## Generic loop invariants and basic step facts -/

lemma foldl_inv {β α : Type _} {P : β → Prop} {f : β → α → β} :
    ∀ {l : List α} {b : β}, P b → (∀ x a, a ∈ l → P x → P (f x a)) → P (l.foldl f b) := by
  intro l
  induction l with
  | nil => intro b h0 _; exact h0
  | cons a t ih =>
    intro b h0 hstep
    rw [List.foldl_cons]
    exact ih (hstep b a (List.mem_cons_self a t) h0)
      (fun x a' ha' hx => hstep x a' (List.mem_cons_of_mem _ ha') hx)

lemma dailyLoop_inv {interns : List String} {leave : Option (List LeaveChoiceEntry)}
    {P : EngineState → Prop} :
    ∀ {l : List Int} {st st' : EngineState},
      dailyLoop interns leave l st = some st' → P st →
      (∀ x d x', d ∈ l → P x → dailyStep interns leave x d = some x' → P x') → P st' := by
  intro l
  induction l with
  | nil =>
    intro st st' h h0 _
    simp only [dailyLoop, Option.some.injEq] at h
    exact h ▸ h0
  | cons d ds ih =>
    intro st st' h h0 hstep
    rw [dailyLoop] at h
    cases hds : dailyStep interns leave st d with
    | none => rw [hds] at h; exact absurd h (by simp)
    | some s1 =>
      rw [hds, Option.some_bind] at h
      exact ih h (hstep st d s1 (List.mem_cons_self _ _) h0 hds)
        (fun x d' x' hd' hx h' => hstep x d' x' (List.mem_cons_of_mem _ hd') hx h')

lemma generate_roster_some {interns : List String} {s e : Int} {prior : Option Prior}
    {leave : Option (List LeaveChoiceEntry)} {holidays : List Int}
    {shuffle : Nat → List (Int × Int) → List (Int × Int)} {seed : Nat}
    {res : RosterResult}
    (h : generate_roster interns s e prior leave holidays shuffle seed = some res) :
    ∃ st2,
      dailyLoop interns leave (dateRange s e)
        ((shuffle seed (offDayPairs s e holidays)).foldl (offStep interns leave)
          (initState prior)) = some st2 ∧
      res = ⟨(dateRange s e).map (fun d => (d, st2.shifts d)),
             summaryOf st2 (leaveEntriesOf leave), leaveEntriesOf leave⟩ := by
  simp only [generate_roster] at h
  cases hdl : dailyLoop interns leave (dateRange s e)
      ((shuffle seed (offDayPairs s e holidays)).foldl (offStep interns leave)
        (initState prior)) with
  | none => rw [hdl] at h; exact absurd h (by simp)
  | some st2 =>
    rw [hdl] at h
    simp only [Option.some.injEq] at h
    exact ⟨st2, rfl, h.symm⟩

lemma mem_touch {t : List String} {n m : String} : m ∈ touch t n ↔ m ∈ t ∨ m = n := by
  unfold touch
  by_cases h : t.contains n
  · rw [if_pos h]
    constructor
    · exact Or.inl
    · rintro (hm | rfl)
      · exact hm
      · exact List.elem_iff.mp h
  · rw [if_neg h]
    simp [List.mem_append]

lemma mem_touchAll {l t : List String} {m : String} :
    m ∈ touchAll t l ↔ m ∈ t ∨ m ∈ l := by
  induction l generalizing t with
  | nil => simp [touchAll]
  | cons a rest ih =>
    unfold touchAll at ih ⊢
    rw [List.foldl_cons]
    rw [ih]
    rw [mem_touch]
    constructor
    · rintro ((hm | rfl) | hm)
      · exact Or.inl hm
      · exact Or.inr (List.mem_cons_self _ _)
      · exact Or.inr (List.mem_cons_of_mem _ hm)
    · rintro (hm | hm)
      · exact Or.inl (Or.inl hm)
      · rcases List.mem_cons.mp hm with rfl | hm'
        · exact Or.inl (Or.inr rfl)
        · exact Or.inr hm'

lemma touch_nodup {t : List String} {n : String} (h : t.Nodup) : (touch t n).Nodup := by
  unfold touch
  by_cases hc : t.contains n
  · rwa [if_pos hc]
  · rw [if_neg hc]
    rw [List.nodup_append]
    refine ⟨h, List.nodup_singleton n, ?_⟩
    intro a ha hb
    rw [List.mem_singleton] at hb
    subst hb
    exact hc (List.elem_iff.mpr ha)

lemma touchAll_nodup {l t : List String} (h : t.Nodup) : (touchAll t l).Nodup := by
  induction l generalizing t with
  | nil => exact h
  | cons a rest ih => exact ih (touch_nodup h)

lemma contains_false_not_mem {α : Type _} [BEq α] [LawfulBEq α] {l : List α} {a : α}
    (h : l.contains a = false) : ¬ a ∈ l := by
  simp at h
  exact h

lemma pymin_mem {α : Type _} {key : α → Nat} {l : List α} {m : α}
    (h : pymin key l = some m) : m ∈ l := by
  rw [pymin_eq_firstMinRec] at h
  exact (firstMinRec_isMin key l m h).1

lemma pySortedHead_mem {α : Type _} {key : α → Nat} {l : List α} {m : α}
    (h : pySortedHead key l = some m) : m ∈ l := by
  rw [pySortedHead_eq_firstMinRec] at h
  exact (firstMinRec_isMin key l m h).1

lemma mem_availOn {interns : List String} {leave : Option (List LeaveChoiceEntry)}
    {st : EngineState} {day : Int} {i : String}
    (h : i ∈ availOn interns leave st day) :
    i ∈ interns ∧ ¬ day ∈ leaveMapOf leave i ∧
      (st.shifts day).cover ≠ some i ∧ (st.shifts day).late ≠ some i := by
  unfold availOn at h
  obtain ⟨hmem, hcond⟩ := List.mem_filter.mp h
  simp only [Bool.and_eq_true, Bool.not_eq_true'] at hcond
  obtain ⟨hleave, hcell⟩ := hcond
  refine ⟨hmem, contains_false_not_mem hleave, ?_, ?_⟩
  · intro hcov
    unfold cellHas at hcell
    rw [hcov] at hcell
    simp at hcell
  · intro hlate
    unfold cellHas at hcell
    rw [hlate] at hcell
    simp at hcell

lemma offFree_spec {interns : List String} {leave : Option (List LeaveChoiceEntry)}
    {st : EngineState} {pair : Int × Int} {i : String}
    (h : i ∈ freeInternsOn interns leave st pair) :
    i ∈ interns ∧
      (st.shifts pair.1).cover ≠ some i ∧ (st.shifts pair.1).late ≠ some i ∧
      (st.shifts pair.2).cover ≠ some i ∧ (st.shifts pair.2).late ≠ some i ∧
      ¬ pair.1 ∈ leaveMapOf leave i ∧ ¬ pair.2 ∈ leaveMapOf leave i := by
  unfold freeInternsOn at h
  obtain ⟨hmem, hcond⟩ := List.mem_filter.mp h
  simp only [Bool.and_eq_true, Bool.not_eq_true', Bool.or_eq_false_iff] at hcond
  obtain ⟨⟨hc1, hc2⟩, hl1, hl2⟩ := hcond
  unfold cellHas at hc1 hc2
  simp only [Bool.or_eq_false_iff, beq_eq_false_iff_ne, ne_eq] at hc1 hc2
  exact ⟨hmem, hc1.1, hc1.2, hc2.1, hc2.2,
    contains_false_not_mem hl1, contains_false_not_mem hl2⟩

lemma mem_leaveDays {start d : Int} :
    d ∈ leaveDays start ↔ start ≤ d ∧ d ≤ start + 4 := by
  unfold leaveDays
  rw [List.mem_map]
  constructor
  · rintro ⟨i, hi, hd⟩
    rw [List.mem_range] at hi
    have hd' : start + (i : Int) = d := hd
    omega
  · rintro ⟨h1, h2⟩
    refine ⟨(d - start).toNat, List.mem_range.mpr (by omega), ?_⟩
    show start + ((d - start).toNat : Int) = d
    omega

lemma mem_leaveMapOf {l : List LeaveChoiceEntry} {n : String} {d : Int} :
    d ∈ leaveMapOf (some l) n ↔
      ∃ en ∈ l, en.name = n ∧ en.start ≤ d ∧ d ≤ en.start + 4 := by
  unfold leaveMapOf
  rw [List.mem_flatMap]
  constructor
  · rintro ⟨en, hen, hd⟩
    obtain ⟨henl, hname⟩ := List.mem_filter.mp hen
    rw [beq_iff_eq] at hname
    exact ⟨en, henl, hname, mem_leaveDays.mp hd⟩
  · rintro ⟨en, henl, hname, h1, h2⟩
    refine ⟨en, List.mem_filter.mpr ⟨henl, by rw [beq_iff_eq]; exact hname⟩, ?_⟩
    exact mem_leaveDays.mpr ⟨h1, h2⟩

end Roster

namespace Roster

/-! ## Leave exclusion -/

/-- No cell of the shifts table names a person on a date inside that
person's leave map. -/
def LeaveExcl (leave : Option (List LeaveChoiceEntry)) (st : EngineState) : Prop :=
  ∀ n d, d ∈ leaveMapOf leave n →
    (st.shifts d).cover ≠ some n ∧ (st.shifts d).late ≠ some n

lemma initState_leaveExcl (leave : Option (List LeaveChoiceEntry)) (prior : Option Prior) :
    LeaveExcl leave (initState prior) := by
  intro n d _
  exact ⟨by simp [initState], by simp [initState]⟩

lemma offStep_leaveExcl {interns : List String} {leave : Option (List LeaveChoiceEntry)}
    {st : EngineState} {pair : Int × Int} (h : LeaveExcl leave st) :
    LeaveExcl leave (offStep interns leave st pair) := by
  intro n d hd
  unfold offStep
  simp only
  cases hp : pymin (fun i => (st.counts i).free) (freeInternsOn interns leave st pair) with
  | none => exact h n d hd
  | some intern =>
    obtain ⟨-, -, -, -, -, hnl1, hnl2⟩ := offFree_spec (pymin_mem hp)
    dsimp only
    by_cases hdp : d = pair.1 ∨ d = pair.2
    · rw [if_pos hdp]
      have hne : intern ≠ n := by
        rintro rfl
        rcases hdp with rfl | rfl
        · exact hnl1 hd
        · exact hnl2 hd
      exact ⟨by simpa using hne, by simpa using hne⟩
    · rw [if_neg hdp]
      exact h n d hd

lemma coverFill_leaveExcl {interns : List String} {leave : Option (List LeaveChoiceEntry)}
    {st st1 : EngineState} {day : Int} (h : LeaveExcl leave st)
    (hc : coverFill interns leave st day = some st1) : LeaveExcl leave st1 := by
  unfold coverFill at hc
  by_cases hcov : (st.shifts day).cover.isNone
  · rw [if_pos hcov] at hc
    simp only at hc
    cases hp : pySortedHead (fun i => (st.counts i).cover) (availOn interns leave st day) with
    | none => rw [hp] at hc; exact absurd hc (by simp)
    | some c =>
      rw [hp] at hc
      simp only [Option.some.injEq] at hc
      subst hc
      intro n d hd
      obtain ⟨-, hnl, -, -⟩ := mem_availOn (pySortedHead_mem hp)
      dsimp only
      by_cases hdd : d = day
      · subst hdd
        rw [if_pos rfl]
        have hcn : c ≠ n := by rintro rfl; exact hnl hd
        exact ⟨by simpa using hcn, (h n d hd).2⟩
      · rw [if_neg hdd]
        exact h n d hd
  · rw [if_neg hcov] at hc
    simp only [Option.some.injEq] at hc
    subst hc
    exact h

lemma lateFill_leaveExcl {interns : List String} {leave : Option (List LeaveChoiceEntry)}
    {st st1 : EngineState} {day : Int} (h : LeaveExcl leave st)
    (hc : lateFill interns leave st day = some st1) : LeaveExcl leave st1 := by
  unfold lateFill at hc
  by_cases hlat : (st.shifts day).late.isNone
  · rw [if_pos hlat] at hc
    simp only at hc
    cases hp : pySortedHead (fun i => (st.counts i).late) (availOn interns leave st day) with
    | none => rw [hp] at hc; exact absurd hc (by simp)
    | some c =>
      rw [hp] at hc
      simp only [Option.some.injEq] at hc
      subst hc
      intro n d hd
      obtain ⟨-, hnl, -, -⟩ := mem_availOn (pySortedHead_mem hp)
      dsimp only
      by_cases hdd : d = day
      · subst hdd
        rw [if_pos rfl]
        have hcn : c ≠ n := by rintro rfl; exact hnl hd
        exact ⟨(h n d hd).1, by simpa using hcn⟩
      · rw [if_neg hdd]
        exact h n d hd
  · rw [if_neg hlat] at hc
    simp only [Option.some.injEq] at hc
    subst hc
    exact h

lemma dailyStep_leaveExcl {interns : List String} {leave : Option (List LeaveChoiceEntry)}
    {st st' : EngineState} {day : Int} (h : LeaveExcl leave st)
    (hd : dailyStep interns leave st day = some st') : LeaveExcl leave st' := by
  unfold dailyStep at hd
  cases hc : coverFill interns leave st day with
  | none => rw [hc] at hd; exact absurd hd (by simp)
  | some st1 =>
    rw [hc, Option.some_bind] at hd
    exact lateFill_leaveExcl (coverFill_leaveExcl h hc) hd

end Roster

/-- Claim C4: for every completed run, every leave entry and every date
inside that entry's 5-day interval, the roster never assigns the person to
the Cover or the Late role (in particular not as part of an off block,
which is recorded through these same two cells) on that date. -/
theorem C4_leave_exclusion {interns : List String} {s e : Int} {prior : Option Roster.Prior}
    {ld : List Roster.LeaveChoiceEntry} {holidays : List Int}
    {shuffle : Nat → List (Int × Int) → List (Int × Int)} {seed : Nat}
    {res : Roster.RosterResult}
    (hrun : Roster.generate_roster interns s e prior (some ld) holidays shuffle seed =
      some res) :
    ∀ en ∈ ld, ∀ d : Int, en.start ≤ d → d ≤ en.start + 4 →
      ∀ cell, (d, cell) ∈ res.roster →
        cell.cover ≠ some en.name ∧ cell.late ≠ some en.name := by
  obtain ⟨st2, hdl, hres⟩ := Roster.generate_roster_some hrun
  have hoff : Roster.LeaveExcl (some ld)
      ((shuffle seed (Roster.offDayPairs s e holidays)).foldl
        (Roster.offStep interns (some ld)) (Roster.initState prior)) :=
    Roster.foldl_inv (Roster.initState_leaveExcl _ prior)
      (fun st pair _ h => Roster.offStep_leaveExcl h)
  have hfin : Roster.LeaveExcl (some ld) st2 :=
    Roster.dailyLoop_inv hdl hoff
      (fun st d st' _ h hstep => Roster.dailyStep_leaveExcl h hstep)
  intro en hen d h1 h2 cell hcell
  have hdmem : d ∈ Roster.leaveMapOf (some ld) en.name :=
    Roster.mem_leaveMapOf.mpr ⟨en, hen, rfl, h1, h2⟩
  subst hres
  obtain ⟨d', hd', heq⟩ := List.mem_map.mp hcell
  rw [Prod.ext_iff] at heq
  obtain ⟨hd1, hd2⟩ := heq
  dsimp only at hd1 hd2
  subst hd1
  rw [← hd2]
  exact hfin en.name d' hdmem

/-- Claim C4 witness: the theorem applied to a concrete run with "A" on
leave on the single day of the range. -/
theorem C4_witness :
    (Roster.RosterCell.mk (some "B") (some "C")).cover ≠ some "A" ∧
      (Roster.RosterCell.mk (some "B") (some "C")).late ≠ some "A" :=
  @C4_leave_exclusion ["A", "B", "C"] 0 0 none [⟨"A", 0, "First"⟩] [] (fun _ l => l) 42
    ⟨[(0, ⟨some "B", some "C"⟩)],
      [⟨"B", 1, 0, 0, "None", 24⟩, ⟨"C", 0, 1, 0, "None", 12⟩],
      [⟨"A", 0, 4, "First"⟩]⟩
    (by with_unfolding_all rfl) ⟨"A", 0, "First"⟩ (by decide) 0 (by decide) (by decide)
    ⟨some "B", some "C"⟩ (by decide)

/-- Claim C10: every resolved leave entry of a completed run records
`end = start + 4`, and the set of dates blocked for a person consists
exactly of the days `start … start + 4` of that person's entries — a 5-day
interval, never 7. -/
theorem C10_leave_length {interns : List String} {s e : Int} {prior : Option Roster.Prior}
    {ld : List Roster.LeaveChoiceEntry} {holidays : List Int}
    {shuffle : Nat → List (Int × Int) → List (Int × Int)} {seed : Nat}
    {res : Roster.RosterResult}
    (hrun : Roster.generate_roster interns s e prior (some ld) holidays shuffle seed =
      some res) :
    res.leave = ld.map (fun en => ⟨en.name, en.start, en.start + 4, en.choice⟩) ∧
    (∀ en ∈ res.leave, en.stop = en.start + 4) ∧
    (∀ (n : String) (d : Int), d ∈ Roster.leaveMapOf (some ld) n ↔
      ∃ en ∈ ld, en.name = n ∧ en.start ≤ d ∧ d ≤ en.start + 4) := by
  obtain ⟨st2, hdl, hres⟩ := Roster.generate_roster_some hrun
  subst hres
  refine ⟨rfl, ?_, ?_⟩
  · intro en hen
    simp only [Roster.leaveEntriesOf, List.mem_map] at hen
    obtain ⟨x, -, rfl⟩ := hen
    rfl
  · intro n d
    exact Roster.mem_leaveMapOf

/-- Claim C10 witness: the theorem applied to a concrete run; the resolved
entry for "A" starting at day 7 ends at day 11 = 7 + 4. -/
theorem C10_witness :
    ([(⟨"A", 7, 11, "First"⟩ : Roster.LeaveOut)] : List Roster.LeaveOut) =
      [⟨"A", 7, 7 + 4, "First"⟩] :=
  (@C10_leave_length ["A", "B"] 0 0 none [⟨"A", 7, "First"⟩] [] (fun _ l => l) 42
    ⟨[(0, ⟨some "A", some "B"⟩)],
      [⟨"A", 1, 0, 0, "First", 24⟩, ⟨"B", 0, 1, 0, "None", 12⟩],
      [⟨"A", 7, 11, "First"⟩]⟩
    (by with_unfolding_all rfl)).1

namespace Roster

/-! ## Equation and case lemmas for the engine steps -/

lemma offStep_none {interns : List String} {leave : Option (List LeaveChoiceEntry)}
    {st : EngineState} {pair : Int × Int}
    (h : pymin (fun i => (st.counts i).free) (freeInternsOn interns leave st pair) = none) :
    offStep interns leave st pair = st := by
  unfold offStep
  simp only
  rw [h]

lemma offStep_some {interns : List String} {leave : Option (List LeaveChoiceEntry)}
    {st : EngineState} {pair : Int × Int} {intern : String}
    (h : pymin (fun i => (st.counts i).free) (freeInternsOn interns leave st pair) =
      some intern) :
    offStep interns leave st pair =
      ⟨fun d => if d = pair.1 ∨ d = pair.2 then ⟨some intern, some intern⟩ else st.shifts d,
       fun n => if n = intern then
           ⟨(st.counts n).cover, (st.counts n).late, (st.counts n).free + 1⟩
         else st.counts n,
       touchAll st.touched (freeInternsOn interns leave st pair)⟩ := by
  unfold offStep
  simp only
  rw [h]

lemma coverFill_skip {interns : List String} {leave : Option (List LeaveChoiceEntry)}
    {st : EngineState} {day : Int} (h : ¬ (st.shifts day).cover.isNone = true) :
    coverFill interns leave st day = some st := by
  unfold coverFill
  rw [if_neg h]

lemma coverFill_crash {interns : List String} {leave : Option (List LeaveChoiceEntry)}
    {st : EngineState} {day : Int} (h1 : (st.shifts day).cover.isNone = true)
    (h2 : pySortedHead (fun i => (st.counts i).cover) (availOn interns leave st day) = none) :
    coverFill interns leave st day = none := by
  unfold coverFill
  rw [if_pos h1]
  simp only
  rw [h2]

lemma coverFill_fill {interns : List String} {leave : Option (List LeaveChoiceEntry)}
    {st : EngineState} {day : Int} {c : String} (h1 : (st.shifts day).cover.isNone = true)
    (h2 : pySortedHead (fun i => (st.counts i).cover) (availOn interns leave st day) = some c) :
    coverFill interns leave st day = some
      ⟨fun d => if d = day then ⟨some c, (st.shifts d).late⟩ else st.shifts d,
       fun n => if n = c then ⟨(st.counts n).cover + 1, (st.counts n).late, (st.counts n).free⟩
         else st.counts n,
       touchAll st.touched (availOn interns leave st day)⟩ := by
  unfold coverFill
  rw [if_pos h1]
  simp only
  rw [h2]

lemma lateFill_skip {interns : List String} {leave : Option (List LeaveChoiceEntry)}
    {st : EngineState} {day : Int} (h : ¬ (st.shifts day).late.isNone = true) :
    lateFill interns leave st day = some st := by
  unfold lateFill
  rw [if_neg h]

lemma lateFill_crash {interns : List String} {leave : Option (List LeaveChoiceEntry)}
    {st : EngineState} {day : Int} (h1 : (st.shifts day).late.isNone = true)
    (h2 : pySortedHead (fun i => (st.counts i).late) (availOn interns leave st day) = none) :
    lateFill interns leave st day = none := by
  unfold lateFill
  rw [if_pos h1]
  simp only
  rw [h2]

lemma lateFill_fill {interns : List String} {leave : Option (List LeaveChoiceEntry)}
    {st : EngineState} {day : Int} {c : String} (h1 : (st.shifts day).late.isNone = true)
    (h2 : pySortedHead (fun i => (st.counts i).late) (availOn interns leave st day) = some c) :
    lateFill interns leave st day = some
      ⟨fun d => if d = day then ⟨(st.shifts d).cover, some c⟩ else st.shifts d,
       fun n => if n = c then ⟨(st.counts n).cover, (st.counts n).late + 1, (st.counts n).free⟩
         else st.counts n,
       touchAll st.touched (availOn interns leave st day)⟩ := by
  unfold lateFill
  rw [if_pos h1]
  simp only
  rw [h2]

lemma coverFill_cases {interns : List String} {leave : Option (List LeaveChoiceEntry)}
    {st st1 : EngineState} {day : Int} (h : coverFill interns leave st day = some st1) :
    (¬ (st.shifts day).cover.isNone = true ∧ st1 = st) ∨
    ∃ c, (st.shifts day).cover.isNone = true ∧
      pySortedHead (fun i => (st.counts i).cover) (availOn interns leave st day) = some c ∧
      st1.shifts day = ⟨some c, (st.shifts day).late⟩ ∧
      (∀ d, d ≠ day → st1.shifts d = st.shifts d) ∧
      c ∈ availOn interns leave st day ∧
      (st.shifts day).late ≠ some c ∧
      st1.counts = (fun n => if n = c then
        ⟨(st.counts n).cover + 1, (st.counts n).late, (st.counts n).free⟩ else st.counts n) ∧
      st1.touched = touchAll st.touched (availOn interns leave st day) := by
  by_cases h1 : (st.shifts day).cover.isNone = true
  · cases h2 : pySortedHead (fun i => (st.counts i).cover) (availOn interns leave st day) with
    | none => rw [coverFill_crash h1 h2] at h; exact absurd h (by simp)
    | some c =>
      rw [coverFill_fill h1 h2] at h
      simp only [Option.some.injEq] at h
      subst h
      have hmem := pySortedHead_mem h2
      obtain ⟨-, -, -, hlate⟩ := mem_availOn hmem
      exact Or.inr ⟨c, h1, rfl, by simp, fun d hd => by simp [hd], hmem, hlate, rfl, rfl⟩
  · rw [coverFill_skip h1] at h
    simp only [Option.some.injEq] at h
    exact Or.inl ⟨h1, h.symm⟩

lemma lateFill_cases {interns : List String} {leave : Option (List LeaveChoiceEntry)}
    {st st1 : EngineState} {day : Int} (h : lateFill interns leave st day = some st1) :
    (¬ (st.shifts day).late.isNone = true ∧ st1 = st) ∨
    ∃ c, (st.shifts day).late.isNone = true ∧
      pySortedHead (fun i => (st.counts i).late) (availOn interns leave st day) = some c ∧
      st1.shifts day = ⟨(st.shifts day).cover, some c⟩ ∧
      (∀ d, d ≠ day → st1.shifts d = st.shifts d) ∧
      c ∈ availOn interns leave st day ∧
      (st.shifts day).cover ≠ some c ∧
      st1.counts = (fun n => if n = c then
        ⟨(st.counts n).cover, (st.counts n).late + 1, (st.counts n).free⟩ else st.counts n) ∧
      st1.touched = touchAll st.touched (availOn interns leave st day) := by
  by_cases h1 : (st.shifts day).late.isNone = true
  · cases h2 : pySortedHead (fun i => (st.counts i).late) (availOn interns leave st day) with
    | none => rw [lateFill_crash h1 h2] at h; exact absurd h (by simp)
    | some c =>
      rw [lateFill_fill h1 h2] at h
      simp only [Option.some.injEq] at h
      subst h
      have hmem := pySortedHead_mem h2
      obtain ⟨-, -, hcov, -⟩ := mem_availOn hmem
      exact Or.inr ⟨c, h1, rfl, by simp, fun d hd => by simp [hd], hmem, hcov, rfl, rfl⟩
  · rw [lateFill_skip h1] at h
    simp only [Option.some.injEq] at h
    exact Or.inl ⟨h1, h.symm⟩

lemma dailyStep_cases {interns : List String} {leave : Option (List LeaveChoiceEntry)}
    {st st' : EngineState} {day : Int} (h : dailyStep interns leave st day = some st') :
    ∃ st1, coverFill interns leave st day = some st1 ∧
      lateFill interns leave st1 day = some st' := by
  unfold dailyStep at h
  cases hc : coverFill interns leave st day with
  | none => rw [hc] at h; exact absurd h (by simp)
  | some st1 =>
    rw [hc, Option.some_bind] at h
    exact ⟨st1, rfl, h⟩

lemma dailyStep_day {interns : List String} {leave : Option (List LeaveChoiceEntry)}
    {st st' : EngineState} {day : Int} (h : dailyStep interns leave st day = some st') :
    (st'.shifts day).cover ≠ none ∧ (st'.shifts day).late ≠ none ∧
      (∀ d, d ≠ day → st'.shifts d = st.shifts d) := by
  obtain ⟨st1, hc, hl⟩ := dailyStep_cases h
  have hcov1 : (st1.shifts day).cover ≠ none ∧ ∀ d, d ≠ day → st1.shifts d = st.shifts d := by
    rcases coverFill_cases hc with ⟨hno, rfl⟩ | ⟨c, -, -, hday, hoth, -, -, -, -⟩
    · exact ⟨fun hn => hno (by simp [hn]), fun d _ => rfl⟩
    · exact ⟨by simp [hday], hoth⟩
  have hlat1 : (st'.shifts day).cover = (st1.shifts day).cover ∧
      (st'.shifts day).late ≠ none ∧ ∀ d, d ≠ day → st'.shifts d = st1.shifts d := by
    rcases lateFill_cases hl with ⟨hno, rfl⟩ | ⟨c, -, -, hday, hoth, -, -, -, -⟩
    · exact ⟨rfl, fun hn => hno (by simp [hn]), fun d _ => rfl⟩
    · exact ⟨by simp [hday], by simp [hday], hoth⟩
  refine ⟨hlat1.1 ▸ hcov1.1, hlat1.2.1, fun d hd => ?_⟩
  rw [hlat1.2.2 d hd, hcov1.2 d hd]

end Roster

namespace Roster

/-! ## Off-pair cell integrity -/

/-- `d` is one of the two dates of some Saturday-anchored off pair. -/
def pairMember (s e : Int) (holidays : List Int) (d : Int) : Prop :=
  (d, d + 1) ∈ offDayPairs s e holidays ∨ (d - 1, d) ∈ offDayPairs s e holidays

/-- Cell integrity: a touched date has both cells set, and the two cells
agree only on dates of an off pair. -/
def PairInv (s e : Int) (holidays : List Int) (st : EngineState) : Prop :=
  ∀ d, ((st.shifts d).cover ≠ none ∨ (st.shifts d).late ≠ none) →
    ((st.shifts d).cover ≠ none ∧ (st.shifts d).late ≠ none) ∧
    ((st.shifts d).cover = (st.shifts d).late → pairMember s e holidays d)

lemma offDayPairs_snd {s e : Int} {holidays : List Int} {p : Int × Int}
    (hp : p ∈ offDayPairs s e holidays) : p.2 = p.1 + 1 := by
  unfold offDayPairs at hp
  obtain ⟨d, -, heq⟩ := List.mem_map.mp hp
  rw [← heq]

lemma initState_pairInv (s e : Int) (holidays : List Int) (prior : Option Prior) :
    PairInv s e holidays (initState prior) := by
  intro d hd
  rcases hd with h | h <;> simp [initState] at h

lemma offStep_pairInv {s e : Int} {holidays : List Int} {interns : List String}
    {leave : Option (List LeaveChoiceEntry)} {st : EngineState} {pair : Int × Int}
    (hpmem : pair ∈ offDayPairs s e holidays) (h : PairInv s e holidays st) :
    PairInv s e holidays (offStep interns leave st pair) := by
  cases hp : pymin (fun i => (st.counts i).free) (freeInternsOn interns leave st pair) with
  | none => rw [offStep_none hp]; exact h
  | some intern =>
    rw [offStep_some hp]
    intro d hd
    dsimp only at hd ⊢
    by_cases hdp : d = pair.1 ∨ d = pair.2
    · rw [if_pos hdp]
      refine ⟨⟨by simp, by simp⟩, fun _ => ?_⟩
      have hsnd := offDayPairs_snd hpmem
      rcases hdp with rfl | rfl
      · left
        have hpe : (pair.1, pair.1 + 1) = pair := by
          rw [← hsnd]
        rw [hpe]
        exact hpmem
      · right
        have h1 : pair.2 - 1 = pair.1 := by omega
        have hpe : (pair.2 - 1, pair.2) = pair := by
          rw [h1]
        rw [hpe]
        exact hpmem
    · rw [if_neg hdp] at hd ⊢
      exact h d hd

lemma dailyStep_pairInv {s e : Int} {holidays : List Int} {interns : List String}
    {leave : Option (List LeaveChoiceEntry)} {st st' : EngineState} {day : Int}
    (h : PairInv s e holidays st) (hd : dailyStep interns leave st day = some st') :
    PairInv s e holidays st' := by
  obtain ⟨st1, hc, hl⟩ := dailyStep_cases hd
  rcases coverFill_cases hc with ⟨hno, heq1⟩ | ⟨c, hisn, -, hday1, hoth1, -, -, -, -⟩
  · -- Cover already present: by the invariant Late is present too, so the
    -- late fill is skipped and the state is unchanged.
    subst st1
    have hcovNe : (st.shifts day).cover ≠ none := by
      intro hn
      exact hno (by simp [hn])
    have hlatNe : (st.shifts day).late ≠ none := (h day (Or.inl hcovNe)).1.2
    have hskip : ¬ (st.shifts day).late.isNone = true := by
      simpa [Option.isNone_iff_eq_none] using hlatNe
    rw [lateFill_skip hskip] at hl
    simp only [Option.some.injEq] at hl
    subst hl
    exact h
  · -- Cover was empty; by the invariant Late was empty too, so the late
    -- fill assigns a different person.
    have hcovN : (st.shifts day).cover = none := by
      rwa [Option.isNone_iff_eq_none] at hisn
    have hlatN : (st.shifts day).late = none := by
      by_contra hln
      exact (h day (Or.inr hln)).1.1 hcovN
    rcases lateFill_cases hl with ⟨hno2, heq2⟩ | ⟨c2, -, -, hday2, hoth2, -, hne, -, -⟩
    · exact absurd (by simp [hday1, hlatN]) hno2
    · intro dd hdc
      by_cases hdd : dd = day
      · subst hdd
        rw [hday2, hday1]
        refine ⟨⟨by simp, by simp⟩, fun hEq => ?_⟩
        rw [hday1] at hne
        have hcc : c = c2 := by
          have hEq2 : some c = some c2 := by simpa using hEq
          injection hEq2
        exact absurd (by rw [hcc]) hne
      · rw [hoth2 dd hdd, hoth1 dd hdd] at hdc ⊢
        exact h dd hdc

lemma dailyLoop_mono_filled {interns : List String} {leave : Option (List LeaveChoiceEntry)} :
    ∀ {l : List Int} {st st' : EngineState},
      dailyLoop interns leave l st = some st' → ∀ d,
        ((st.shifts d).cover ≠ none ∧ (st.shifts d).late ≠ none) →
        (st'.shifts d).cover ≠ none ∧ (st'.shifts d).late ≠ none := by
  intro l
  induction l with
  | nil =>
    intro st st' h d hd
    simp only [dailyLoop, Option.some.injEq] at h
    exact h ▸ hd
  | cons day ds ih =>
    intro st st' h d hd
    rw [dailyLoop] at h
    cases hds : dailyStep interns leave st day with
    | none => rw [hds] at h; exact absurd h (by simp)
    | some st1 =>
      rw [hds, Option.some_bind] at h
      obtain ⟨hc1, hl1, hoth⟩ := dailyStep_day hds
      by_cases hdd : d = day
      · subst hdd
        exact ih h d ⟨hc1, hl1⟩
      · refine ih h d ?_
        rw [hoth d hdd]
        exact hd

lemma dailyLoop_fills {interns : List String} {leave : Option (List LeaveChoiceEntry)} :
    ∀ {l : List Int} {st st' : EngineState},
      dailyLoop interns leave l st = some st' → ∀ d ∈ l,
        (st'.shifts d).cover ≠ none ∧ (st'.shifts d).late ≠ none := by
  intro l
  induction l with
  | nil => intro st st' _ d hd; simp at hd
  | cons day ds ih =>
    intro st st' h d hd
    rw [dailyLoop] at h
    cases hds : dailyStep interns leave st day with
    | none => rw [hds] at h; exact absurd h (by simp)
    | some st1 =>
      rw [hds, Option.some_bind] at h
      rcases List.mem_cons.mp hd with rfl | hmem
      · obtain ⟨hc1, hl1, -⟩ := dailyStep_day hds
        exact dailyLoop_mono_filled h d ⟨hc1, hl1⟩
      · exact ih h d hmem

end Roster

/-- Claim C1 (corrected): in every completed run both roles are filled on
every date, and the only dates on which the Cover cell equals the Late cell
are dates of a Saturday–Sunday off-day pair — the off-block encoding
deliberately records the block winner in both roles on both dates; on every
other date Cover-person ≠ Late-person. -/
theorem C1_amended {interns : List String} {s e : Int} {prior : Option Roster.Prior}
    {leave : Option (List Roster.LeaveChoiceEntry)} {holidays : List Int}
    {shuffle : Nat → List (Int × Int) → List (Int × Int)} {seed : Nat}
    {res : Roster.RosterResult}
    (hsh : ∀ l, (shuffle seed l).Perm l)
    (hrun : Roster.generate_roster interns s e prior leave holidays shuffle seed = some res) :
    ∀ d cell, (d, cell) ∈ res.roster →
      cell.cover ≠ none ∧ cell.late ≠ none ∧
      (cell.cover = cell.late →
        (d, d + 1) ∈ Roster.offDayPairs s e holidays ∨
        (d - 1, d) ∈ Roster.offDayPairs s e holidays) := by
  obtain ⟨st2, hdl, hres⟩ := Roster.generate_roster_some hrun
  have hoff : Roster.PairInv s e holidays
      ((shuffle seed (Roster.offDayPairs s e holidays)).foldl
        (Roster.offStep interns leave) (Roster.initState prior)) :=
    Roster.foldl_inv (Roster.initState_pairInv s e holidays prior)
      (fun st pair hpmem h =>
        Roster.offStep_pairInv
          ((hsh (Roster.offDayPairs s e holidays)).mem_iff.mp hpmem) h)
  have hfin : Roster.PairInv s e holidays st2 :=
    Roster.dailyLoop_inv hdl hoff
      (fun st d st' _ h hstep => Roster.dailyStep_pairInv h hstep)
  intro d cell hcell
  subst hres
  obtain ⟨d', hd', heq⟩ := List.mem_map.mp hcell
  rw [Prod.ext_iff] at heq
  obtain ⟨hd1, hd2⟩ := heq
  dsimp only at hd1 hd2
  subst hd1
  rw [← hd2]
  obtain ⟨hcov, hlat⟩ := Roster.dailyLoop_fills hdl d' hd'
  exact ⟨hcov, hlat, fun hEq => (hfin d' (Or.inl hcov)).2 hEq⟩

/-- Claim C1 witness: the amended theorem applied to the run of the
counterexample; date 5 is a Saturday carrying an off pair, so the equal
Cover and Late cells are licensed. -/
theorem C1_witness :
    (some "A" : Option String) ≠ none ∧ (some "A" : Option String) ≠ none ∧
      ((some "A" : Option String) = some "A" →
        ((5 : Int), (5 : Int) + 1) ∈ Roster.offDayPairs 5 6 [] ∨
        ((5 : Int) - 1, (5 : Int)) ∈ Roster.offDayPairs 5 6 []) :=
  @C1_amended ["A"] 5 6 none none [] (fun _ l => l) 42
    ⟨[(5, ⟨some "A", some "A"⟩), (6, ⟨some "A", some "A"⟩)],
      [⟨"A", 0, 0, 1, "None", 0⟩], []⟩
    (fun l => List.Perm.refl l) (by decide) 5 ⟨some "A", some "A"⟩ (by decide)

namespace Roster

/-! ## The holiday set cannot influence the off pairs -/

lemma mem_dateRange {s e d : Int} : d ∈ dateRange s e ↔ s ≤ d ∧ d ≤ e := by
  unfold dateRange
  rw [List.mem_map]
  constructor
  · rintro ⟨i, hi, hd⟩
    rw [List.mem_range] at hi
    have hd' : s + (i : Int) = d := hd
    omega
  · rintro ⟨h1, h2⟩
    refine ⟨(d - s).toNat, List.mem_range.mpr (by omega), ?_⟩
    show s + ((d - s).toNat : Int) = d
    omega

lemma dateRange_pairwise (s e : Int) : (dateRange s e).Pairwise (· < ·) := by
  unfold dateRange
  rw [List.pairwise_map]
  refine (List.pairwise_lt_range _).imp ?_
  intro a b hab
  omega

lemma dateRange_nodup (s e : Int) : (dateRange s e).Nodup :=
  (dateRange_pairwise s e).imp (fun hab => ne_of_lt hab)

lemma weekday_succ_sat {d : Int} (h : weekday d = 5) : weekday (d + 1) = 6 := by
  unfold weekday at h ⊢
  omega

lemma mem_offDayCandidates {s e d : Int} {holidays : List Int} :
    d ∈ offDayCandidates s e holidays ↔
      d ∈ weekendsIn s e ∨ d ∈ holidayDaysIn s e holidays := by
  unfold offDayCandidates
  rw [List.mem_insertionSort, List.mem_dedup, List.mem_append]

lemma offDayCandidates_sorted (s e : Int) (holidays : List Int) :
    List.Sorted (· ≤ ·) (offDayCandidates s e holidays) :=
  List.sorted_insertionSort _ _

lemma offDayCandidates_nodup (s e : Int) (holidays : List Int) :
    (offDayCandidates s e holidays).Nodup :=
  (List.perm_insertionSort _ _).nodup_iff.mpr (List.nodup_dedup _)

lemma filterSat_offDayCandidates (s e : Int) (holidays : List Int) :
    (offDayCandidates s e holidays).filter (fun d => weekday d == 5) =
      (dateRange s e).filter (fun d => weekday d == 5) := by
  have hs1 : List.Sorted (· ≤ ·)
      ((offDayCandidates s e holidays).filter (fun d => weekday d == 5)) :=
    List.Pairwise.filter _ (offDayCandidates_sorted s e holidays)
  have hs2 : List.Sorted (· ≤ ·) ((dateRange s e).filter (fun d => weekday d == 5)) :=
    List.Pairwise.filter _ ((dateRange_pairwise s e).imp (fun hab => le_of_lt hab))
  have hperm : ((offDayCandidates s e holidays).filter (fun d => weekday d == 5)).Perm
      ((dateRange s e).filter (fun d => weekday d == 5)) := by
    refine (List.perm_ext_iff_of_nodup ((offDayCandidates_nodup s e holidays).filter _)
      ((dateRange_nodup s e).filter _)).mpr ?_
    intro a
    rw [List.mem_filter, List.mem_filter]
    constructor
    · rintro ⟨hmem, hsat⟩
      refine ⟨?_, hsat⟩
      rcases mem_offDayCandidates.mp hmem with hw | hh
      · unfold weekendsIn at hw
        exact (List.mem_filter.mp hw).1
      · unfold holidayDaysIn at hh
        exact (List.mem_filter.mp hh).1
    · rintro ⟨hmem, hsat⟩
      refine ⟨mem_offDayCandidates.mpr (Or.inl ?_), hsat⟩
      unfold weekendsIn
      refine List.mem_filter.mpr ⟨hmem, ?_⟩
      rw [Bool.or_eq_true]
      exact Or.inl hsat
  exact List.eq_of_perm_of_sorted hperm hs1 hs2

lemma mem_cand_sunday {s e d : Int} {holidays : List Int} (hd : weekday d = 6) :
    d ∈ offDayCandidates s e holidays ↔ s ≤ d ∧ d ≤ e := by
  rw [mem_offDayCandidates]
  constructor
  · rintro (hw | hh)
    · unfold weekendsIn at hw
      exact mem_dateRange.mp (List.mem_filter.mp hw).1
    · unfold holidayDaysIn at hh
      exact mem_dateRange.mp (List.mem_filter.mp hh).1
  · intro hr
    left
    unfold weekendsIn
    refine List.mem_filter.mpr ⟨mem_dateRange.mpr hr, ?_⟩
    rw [Bool.or_eq_true]
    right
    rw [beq_iff_eq]
    exact hd

lemma offDayPairs_holiday_indep (s e : Int) (h h' : List Int) :
    offDayPairs s e h = offDayPairs s e h' := by
  have key : ∀ hol : List Int,
      (offDayCandidates s e hol).filter
        (fun d => weekday d == 5 && (offDayCandidates s e hol).contains (d + 1)) =
      ((dateRange s e).filter (fun d => weekday d == 5)).filter
        (fun d => decide (s ≤ d + 1 ∧ d + 1 ≤ e)) := by
    intro hol
    rw [List.filter_congr (fun d _ => Bool.and_comm (weekday d == 5)
      ((offDayCandidates s e hol).contains (d + 1)))]
    rw [← List.filter_filter]
    rw [filterSat_offDayCandidates]
    refine List.filter_congr ?_
    intro d hd
    obtain ⟨hdr, hsat⟩ := List.mem_filter.mp hd
    have hsat' : weekday d = 5 := by rwa [beq_iff_eq] at hsat
    have h6 : weekday (d + 1) = 6 := weekday_succ_sat hsat'
    refine Bool.coe_iff_coe.mp ?_
    rw [decide_eq_true_eq]
    exact List.elem_iff.trans (mem_cand_sunday h6)
  unfold offDayPairs
  rw [key h, key h']

end Roster

/-- Claim C6: the engine's outputs never depend on the holiday set — every
off block needs a Saturday anchor whose successor is a Sunday, and both
days are already weekend off-day candidates, so replacing the holiday set
by any other set (including the empty set) leaves the off pairs, and hence
the roster, summary and leave schedule, unchanged. -/
theorem C6_holiday_independence (interns : List String) (s e : Int) (prior : Option Roster.Prior)
    (leave : Option (List Roster.LeaveChoiceEntry)) (h h' : List Int)
    (shuffle : Nat → List (Int × Int) → List (Int × Int)) (seed : Nat) :
    Roster.generate_roster interns s e prior leave h shuffle seed =
      Roster.generate_roster interns s e prior leave h' shuffle seed := by
  unfold Roster.generate_roster
  rw [Roster.offDayPairs_holiday_indep s e h h']

namespace Roster

/-! ## The touched-key set and the summary rows -/

/-- The index names of the optional previous summary. -/
def priorNames (prior : Option Prior) : List String :=
  match prior with
  | none => []
  | some p => p.rows.map (·.name)

/-- The touched set is duplicate-free and drawn from the supplied intern
list and the prior summary's index. -/
def TouchedInv (interns : List String) (prior : Option Prior) (st : EngineState) : Prop :=
  st.touched.Nodup ∧ ∀ n ∈ st.touched, n ∈ interns ∨ n ∈ priorNames prior

lemma mem_priorTouched {prior : Option Prior} {n : String} :
    n ∈ priorTouched prior → n ∈ priorNames prior := by
  cases prior with
  | none => intro h; exact absurd h (by simp [priorTouched])
  | some p =>
    unfold priorTouched priorNames
    have : ∀ rows : List PriorRow, ∀ t : List String,
        (∀ m ∈ t, m ∈ p.rows.map (fun r => r.name)) →
        (∀ r ∈ rows, r ∈ p.rows) →
        ∀ m ∈ rows.foldl (fun t r => touch t r.name) t, m ∈ p.rows.map (fun r => r.name) := by
      intro rows
      induction rows with
      | nil => intro t ht _ m hm; exact ht m hm
      | cons r rest ih =>
        intro t ht hsub m hm
        rw [List.foldl_cons] at hm
        refine ih (touch t r.name) ?_ (fun x hx => hsub x (List.mem_cons_of_mem _ hx)) m hm
        intro x hx
        rcases mem_touch.mp hx with hx' | rfl
        · exact ht x hx'
        · exact List.mem_map.mpr ⟨r, hsub r (List.mem_cons_self _ _), rfl⟩
    intro h
    exact this p.rows [] (by simp) (fun r hr => hr) n h

lemma priorTouched_nodup (prior : Option Prior) : (priorTouched prior).Nodup := by
  cases prior with
  | none => simp [priorTouched]
  | some p =>
    unfold priorTouched
    have : ∀ rows : List PriorRow, ∀ t : List String, t.Nodup →
        (rows.foldl (fun t r => touch t r.name) t).Nodup := by
      intro rows
      induction rows with
      | nil => intro t ht; exact ht
      | cons r rest ih =>
        intro t ht
        rw [List.foldl_cons]
        exact ih _ (touch_nodup ht)
    exact this p.rows [] List.nodup_nil

lemma initState_touchedInv (interns : List String) (prior : Option Prior) :
    TouchedInv interns prior (initState prior) :=
  ⟨priorTouched_nodup prior, fun _ hn => Or.inr (mem_priorTouched hn)⟩

lemma offStep_touchedInv {interns : List String} {leave : Option (List LeaveChoiceEntry)}
    {prior : Option Prior} {st : EngineState} {pair : Int × Int}
    (hI : TouchedInv interns prior st) :
    TouchedInv interns prior (offStep interns leave st pair) := by
  cases hp : pymin (fun i => (st.counts i).free) (freeInternsOn interns leave st pair) with
  | none => rw [offStep_none hp]; exact hI
  | some intern =>
    rw [offStep_some hp]
    refine ⟨touchAll_nodup hI.1, ?_⟩
    intro n hn
    rcases mem_touchAll.mp hn with hn' | hn'
    · exact hI.2 n hn'
    · exact Or.inl (offFree_spec hn').1

lemma coverFill_touchedInv {interns : List String} {leave : Option (List LeaveChoiceEntry)}
    {prior : Option Prior} {st st1 : EngineState} {day : Int}
    (hI : TouchedInv interns prior st) (hc : coverFill interns leave st day = some st1) :
    TouchedInv interns prior st1 := by
  rcases coverFill_cases hc with ⟨-, heq⟩ | ⟨c, -, -, -, -, -, -, -, htch⟩
  · rwa [heq]
  · refine ⟨?_, ?_⟩
    · rw [htch]; exact touchAll_nodup hI.1
    · intro n hn
      rw [htch] at hn
      rcases mem_touchAll.mp hn with hn' | hn'
      · exact hI.2 n hn'
      · exact Or.inl (mem_availOn hn').1

lemma lateFill_touchedInv {interns : List String} {leave : Option (List LeaveChoiceEntry)}
    {prior : Option Prior} {st st1 : EngineState} {day : Int}
    (hI : TouchedInv interns prior st) (hc : lateFill interns leave st day = some st1) :
    TouchedInv interns prior st1 := by
  rcases lateFill_cases hc with ⟨-, heq⟩ | ⟨c, -, -, -, -, -, -, -, htch⟩
  · rwa [heq]
  · refine ⟨?_, ?_⟩
    · rw [htch]; exact touchAll_nodup hI.1
    · intro n hn
      rw [htch] at hn
      rcases mem_touchAll.mp hn with hn' | hn'
      · exact hI.2 n hn'
      · exact Or.inl (mem_availOn hn').1

lemma dailyStep_touchedInv {interns : List String} {leave : Option (List LeaveChoiceEntry)}
    {prior : Option Prior} {st st' : EngineState} {day : Int}
    (hI : TouchedInv interns prior st) (hd : dailyStep interns leave st day = some st') :
    TouchedInv interns prior st' := by
  obtain ⟨st1, hc, hl⟩ := dailyStep_cases hd
  exact lateFill_touchedInv (coverFill_touchedInv hI hc) hl

lemma summaryOf_names (st : EngineState) (lo : List LeaveOut) :
    (summaryOf st lo).map (fun row => row.name) = List.insertionSort (· ≤ ·) st.touched := by
  unfold summaryOf
  rw [List.map_map]
  exact List.map_id _

lemma summaryOf_sorted_strict (st : EngineState) (lo : List LeaveOut)
    (h : st.touched.Nodup) :
    ((summaryOf st lo).map (fun row => row.name)).Pairwise (· < ·) := by
  rw [summaryOf_names]
  exact List.Sorted.lt_of_le (List.sorted_insertionSort _ _)
    ((List.perm_insertionSort _ _).nodup_iff.mpr h)

lemma summaryOf_row_mem {st : EngineState} {lo : List LeaveOut} {row : SummaryRow}
    (h : row ∈ summaryOf st lo) :
    row.name ∈ st.touched ∧
    row.cover = (st.counts row.name).cover ∧
    row.late = (st.counts row.name).late ∧
    row.freeWeekends = (st.counts row.name).free ∧
    row.totalHours = row.cover * 24 + row.late * 12 ∧
    row.leaveChoice =
      (match lo.find? (fun en => en.name == row.name) with
       | some en => en.choice
       | none => "None") := by
  unfold summaryOf at h
  obtain ⟨n, hn, rfl⟩ := List.mem_map.mp h
  exact ⟨(List.mem_insertionSort _).mp hn, rfl, rfl, rfl, rfl, rfl⟩

end Roster

/-- Claim C5 (corrected): the summary of a completed run has strictly
ascending row names (so at most one row per person), every row's name comes
from the supplied list or the prior summary's index, TotalHours =
CoverCount×24 + LateCount×12, and LeaveChoice is the first matching leave
entry's rank tag or "None".  A supplied person who was never eligible on
any date (and has no prior row) receives no row at all. -/
theorem C5_amended {interns : List String} {s e : Int}
    {prior : Option Roster.Prior} {leave : Option (List Roster.LeaveChoiceEntry)}
    {holidays : List Int} {shuffle : Nat → List (Int × Int) → List (Int × Int)}
    {seed : Nat} {res : Roster.RosterResult}
    (hrun : Roster.generate_roster interns s e prior leave holidays shuffle seed =
      some res) :
    ((res.summary.map (fun row => row.name)).Pairwise (· < ·)) ∧
    ∀ row ∈ res.summary,
      (row.name ∈ interns ∨ row.name ∈ Roster.priorNames prior) ∧
      row.totalHours = row.cover * 24 + row.late * 12 ∧
      row.leaveChoice =
        (match (Roster.leaveEntriesOf leave).find? (fun en => en.name == row.name) with
         | some en => en.choice
         | none => "None") := by
  obtain ⟨st2, hdl, hres⟩ := Roster.generate_roster_some hrun
  have hoff : Roster.TouchedInv interns prior
      ((shuffle seed (Roster.offDayPairs s e holidays)).foldl
        (Roster.offStep interns leave) (Roster.initState prior)) :=
    Roster.foldl_inv (Roster.initState_touchedInv interns prior)
      (fun st pair _ h => Roster.offStep_touchedInv h)
  have hfin : Roster.TouchedInv interns prior st2 :=
    Roster.dailyLoop_inv hdl hoff
      (fun st d st' _ h hstep => Roster.dailyStep_touchedInv h hstep)
  subst hres
  refine ⟨Roster.summaryOf_sorted_strict st2 _ hfin.1, ?_⟩
  intro row hrow
  obtain ⟨hmem, -, -, -, hth, hlc⟩ := Roster.summaryOf_row_mem hrow
  exact ⟨hfin.2 row.name hmem, hth, hlc⟩

/-- Claim C5 witness: the amended theorem applied to a concrete run with
two interns over a single Monday. -/
theorem C5_amended_witness :
    ((([⟨"A", 1, 0, 0, "None", 24⟩, ⟨"B", 0, 1, 0, "None", 12⟩] :
        List Roster.SummaryRow).map (fun row => row.name)).Pairwise (· < ·)) ∧
    ∀ row ∈ ([⟨"A", 1, 0, 0, "None", 24⟩, ⟨"B", 0, 1, 0, "None", 12⟩] :
        List Roster.SummaryRow),
      (row.name ∈ ["A", "B"] ∨ row.name ∈ Roster.priorNames none) ∧
      row.totalHours = row.cover * 24 + row.late * 12 ∧
      row.leaveChoice =
        (match (Roster.leaveEntriesOf none).find? (fun en => en.name == row.name) with
         | some en => en.choice
         | none => "None") :=
  @C5_amended ["A", "B"] 0 0 none none [] (fun _ l => l) 42
    ⟨[(0, ⟨some "A", some "B"⟩)],
      [⟨"A", 1, 0, 0, "None", 24⟩, ⟨"B", 0, 1, 0, "None", 12⟩], []⟩
    (by with_unfolding_all rfl)

namespace Roster

/-! ## Counter seeding and carry-over -/

/-- Read one person's counters out of a summary table (`0` when the person
has no row, matching the `defaultdict` default). -/
def summaryCountsAt (rows : List SummaryRow) (n : String) : Counts :=
  match rows.find? (fun row => row.name == n) with
  | some row => ⟨row.cover, row.late, row.freeWeekends⟩
  | none => ⟨0, 0, 0⟩

/-- Re-ingest a produced summary as the next run's previous-summary input
(the produced summary always carries the `FreeWeekends` column). -/
def summaryAsPrior (rows : List SummaryRow) : Prior :=
  ⟨rows.map (fun r => ⟨r.name, r.cover, r.late, r.freeWeekends⟩), true⟩

/-- Componentwise order on fairness counters. -/
abbrev CountsLE (a b : Counts) : Prop :=
  a.cover ≤ b.cover ∧ a.late ≤ b.late ∧ a.free ≤ b.free

lemma priorFold_eq_touchAll : ∀ (rows : List PriorRow) (t : List String),
    rows.foldl (fun t r => touch t r.name) t = touchAll t (rows.map (fun r => r.name)) := by
  intro rows
  induction rows with
  | nil => intro t; rfl
  | cons r rest ih =>
    intro t
    rw [List.foldl_cons, ih]
    rfl

lemma mem_priorTouched_of_names {prior : Option Prior} {n : String}
    (h : n ∈ priorNames prior) : n ∈ priorTouched prior := by
  cases prior with
  | none => simp [priorNames] at h
  | some p =>
    unfold priorTouched
    show n ∈ List.foldl (fun t r => touch t r.name) [] p.rows
    rw [priorFold_eq_touchAll]
    exact mem_touchAll.mpr (Or.inr h)

lemma seedCounts_not_mem {prior : Option Prior} {n : String}
    (h : ¬ n ∈ priorNames prior) : seedCounts prior n = ⟨0, 0, 0⟩ := by
  cases prior with
  | none => rfl
  | some p =>
    unfold priorNames at h
    have key : ∀ rows : List PriorRow, (∀ r ∈ rows, r.name ≠ n) →
        ∀ c : String → Counts,
        (rows.foldl
          (fun c row => fun m =>
            if m = row.name then
              ⟨row.cover, row.late, if p.hasFreeCol then row.freeWeekends else 0⟩
            else c m) c) n = c n := by
      intro rows
      induction rows with
      | nil => intro _ c; rfl
      | cons r rest ih =>
        intro hne c
        rw [List.foldl_cons, ih (fun x hx => hne x (List.mem_cons_of_mem _ hx))]
        exact if_neg (fun hEq => hne r (List.mem_cons_self _ _) hEq.symm)
    unfold seedCounts
    exact key p.rows (fun r hr hEq => h (List.mem_map.mpr ⟨r, hr, hEq⟩)) _

lemma seedCounts_summaryAsPrior (rows : List SummaryRow)
    (hnd : (rows.map (fun r => r.name)).Nodup) (n : String) :
    seedCounts (some (summaryAsPrior rows)) n = summaryCountsAt rows n := by
  have key : ∀ (rows : List SummaryRow), (rows.map (fun r => r.name)).Nodup →
      ∀ c : String → Counts,
      ((rows.map (fun r => (⟨r.name, r.cover, r.late, r.freeWeekends⟩ : PriorRow))).foldl
        (fun c row => fun m =>
          if m = row.name then
            (⟨row.cover, row.late, if true then row.freeWeekends else 0⟩ : Counts)
          else c m) c) n =
      (match rows.find? (fun row => row.name == n) with
       | some row => (⟨row.cover, row.late, row.freeWeekends⟩ : Counts)
       | none => c n) := by
    intro rows
    induction rows with
    | nil => intro _ c; rfl
    | cons r rest ih =>
      intro hnd c
      rw [List.map_cons, List.foldl_cons, List.find?_cons]
      rw [List.map_cons] at hnd
      have hnd' := List.nodup_cons.mp hnd
      cases hrn : (r.name == n) with
      | true =>
        have hrn' : r.name = n := by rwa [beq_iff_eq] at hrn
        have hnone : rest.find? (fun row => row.name == n) = none := by
          rw [List.find?_eq_none]
          intro row hrow hbeq
          rw [beq_iff_eq] at hbeq
          refine hnd'.1 ?_
          rw [hrn', ← hbeq]
          exact List.mem_map.mpr ⟨row, hrow, rfl⟩
        rw [ih hnd'.2, hnone]
        simp only
        rw [if_pos hrn'.symm]
        simp
      | false =>
        have hrn' : ¬ r.name = n := by
          intro hEq
          rw [hEq] at hrn
          simp at hrn
        rw [ih hnd'.2]
        cases hfind : rest.find? (fun row => row.name == n) with
        | some row => rfl
        | none =>
          simp only
          rw [if_neg (fun hEq => hrn' hEq.symm)]
  unfold summaryCountsAt summaryAsPrior seedCounts
  exact key rows hnd _

/-- Invariant used for carry-over: untouched people keep zero counters,
counters never drop below the seed, and the seeded names stay touched. -/
def CarryInv (base : String → Counts) (prior : Option Prior) (st : EngineState) : Prop :=
  (∀ n, ¬ n ∈ st.touched → st.counts n = ⟨0, 0, 0⟩) ∧
  (∀ n, CountsLE (base n) (st.counts n)) ∧
  (∀ n ∈ priorTouched prior, n ∈ st.touched)

lemma initState_carryInv (prior : Option Prior) :
    CarryInv (seedCounts prior) prior (initState prior) := by
  refine ⟨?_, ?_, fun n hn => hn⟩
  · intro n hn
    refine seedCounts_not_mem ?_
    intro hmem
    exact hn (mem_priorTouched_of_names hmem)
  · intro n
    exact ⟨le_refl _, le_refl _, le_refl _⟩

lemma offStep_carryInv {base : String → Counts} {prior : Option Prior}
    {interns : List String} {leave : Option (List LeaveChoiceEntry)}
    {st : EngineState} {pair : Int × Int} (h : CarryInv base prior st) :
    CarryInv base prior (offStep interns leave st pair) := by
  cases hp : pymin (fun i => (st.counts i).free) (freeInternsOn interns leave st pair) with
  | none => rw [offStep_none hp]; exact h
  | some intern =>
    rw [offStep_some hp]
    have hintern := pymin_mem hp
    obtain ⟨hz, hmono, htch⟩ := h
    refine ⟨?_, ?_, ?_⟩
    · intro n hn
      dsimp only at hn ⊢
      have ht : ¬ n ∈ st.touched := fun hc => hn (mem_touchAll.mpr (Or.inl hc))
      have hf : ¬ n ∈ freeInternsOn interns leave st pair :=
        fun hc => hn (mem_touchAll.mpr (Or.inr hc))
      have hne : n ≠ intern := by
        rintro rfl
        exact hf hintern
      rw [if_neg hne]
      exact hz n ht
    · intro n
      dsimp only
      by_cases hne : n = intern
      · subst hne
        rw [if_pos rfl]
        obtain ⟨h1, h2, h3⟩ := hmono n
        exact ⟨h1, h2, le_trans h3 (Nat.le_succ _)⟩
      · rw [if_neg hne]
        exact hmono n
    · intro n hn
      dsimp only
      exact mem_touchAll.mpr (Or.inl (htch n hn))

lemma coverFill_carryInv {base : String → Counts} {prior : Option Prior}
    {interns : List String} {leave : Option (List LeaveChoiceEntry)}
    {st st1 : EngineState} {day : Int} (h : CarryInv base prior st)
    (hc : coverFill interns leave st day = some st1) :
    CarryInv base prior st1 := by
  rcases coverFill_cases hc with ⟨-, heq⟩ | ⟨c, -, -, -, -, hcm, -, hcnt, htch⟩
  · rwa [heq]
  · obtain ⟨hz, hmono, htc⟩ := h
    refine ⟨?_, ?_, ?_⟩
    · intro n hn
      rw [htch] at hn
      have ht : ¬ n ∈ st.touched := fun hx => hn (mem_touchAll.mpr (Or.inl hx))
      have hf : ¬ n ∈ availOn interns leave st day :=
        fun hx => hn (mem_touchAll.mpr (Or.inr hx))
      have hne : n ≠ c := by
        rintro rfl
        exact hf hcm
      rw [hcnt]
      dsimp only
      rw [if_neg hne]
      exact hz n ht
    · intro n
      rw [hcnt]
      dsimp only
      by_cases hne : n = c
      · subst hne
        rw [if_pos rfl]
        obtain ⟨h1, h2, h3⟩ := hmono n
        exact ⟨le_trans h1 (Nat.le_succ _), h2, h3⟩
      · rw [if_neg hne]
        exact hmono n
    · intro n hn
      rw [htch]
      exact mem_touchAll.mpr (Or.inl (htc n hn))

lemma lateFill_carryInv {base : String → Counts} {prior : Option Prior}
    {interns : List String} {leave : Option (List LeaveChoiceEntry)}
    {st st1 : EngineState} {day : Int} (h : CarryInv base prior st)
    (hc : lateFill interns leave st day = some st1) :
    CarryInv base prior st1 := by
  rcases lateFill_cases hc with ⟨-, heq⟩ | ⟨c, -, -, -, -, hcm, -, hcnt, htch⟩
  · rwa [heq]
  · obtain ⟨hz, hmono, htc⟩ := h
    refine ⟨?_, ?_, ?_⟩
    · intro n hn
      rw [htch] at hn
      have ht : ¬ n ∈ st.touched := fun hx => hn (mem_touchAll.mpr (Or.inl hx))
      have hf : ¬ n ∈ availOn interns leave st day :=
        fun hx => hn (mem_touchAll.mpr (Or.inr hx))
      have hne : n ≠ c := by
        rintro rfl
        exact hf hcm
      rw [hcnt]
      dsimp only
      rw [if_neg hne]
      exact hz n ht
    · intro n
      rw [hcnt]
      dsimp only
      by_cases hne : n = c
      · subst hne
        rw [if_pos rfl]
        obtain ⟨h1, h2, h3⟩ := hmono n
        exact ⟨h1, le_trans h2 (Nat.le_succ _), h3⟩
      · rw [if_neg hne]
        exact hmono n
    · intro n hn
      rw [htch]
      exact mem_touchAll.mpr (Or.inl (htc n hn))

lemma dailyStep_carryInv {base : String → Counts} {prior : Option Prior}
    {interns : List String} {leave : Option (List LeaveChoiceEntry)}
    {st st' : EngineState} {day : Int} (h : CarryInv base prior st)
    (hd : dailyStep interns leave st day = some st') :
    CarryInv base prior st' := by
  obtain ⟨st1, hc, hl⟩ := dailyStep_cases hd
  exact lateFill_carryInv (coverFill_carryInv h hc) hl

end Roster

namespace Roster

lemma find?_mkSummaryRow (st : EngineState) (lo : List LeaveOut) (n : String) :
    ∀ l : List String,
      (l.map (mkSummaryRow st lo)).find? (fun row => row.name == n) =
        if n ∈ l then some (mkSummaryRow st lo n) else none := by
  intro l
  induction l with
  | nil => simp
  | cons m rest ih =>
    rw [List.map_cons, List.find?_cons]
    by_cases hmn : m = n
    · subst hmn
      have hb : ((mkSummaryRow st lo m).name == m) = true := by
        rw [beq_iff_eq]
        rfl
      rw [hb, if_pos (List.mem_cons_self _ _)]
    · have hb : ((mkSummaryRow st lo m).name == n) = false := by
        refine Bool.eq_false_iff.mpr ?_
        rw [ne_eq, beq_iff_eq]
        exact hmn
      rw [hb, ih]
      by_cases hr : n ∈ rest
      · rw [if_pos hr, if_pos (List.mem_cons_of_mem _ hr)]
      · rw [if_neg hr, if_neg ?_]
        intro hc
        rcases List.mem_cons.mp hc with rfl | hc'
        · exact hmn rfl
        · exact hr hc'

lemma summaryCountsAt_summaryOf (st : EngineState) (lo : List LeaveOut) (n : String) :
    summaryCountsAt (summaryOf st lo) n =
      if n ∈ st.touched then st.counts n else ⟨0, 0, 0⟩ := by
  unfold summaryCountsAt summaryOf
  rw [find?_mkSummaryRow]
  by_cases ht : n ∈ List.insertionSort (· ≤ ·) st.touched
  · rw [if_pos ht, if_pos ((List.mem_insertionSort _).mp ht)]
    rfl
  · rw [if_neg ht, if_neg (fun hc => ht ((List.mem_insertionSort _).mpr hc))]

lemma summaryCountsAt_not_mem {rows : List SummaryRow} {n : String}
    (h : ¬ n ∈ rows.map (fun r => r.name)) : summaryCountsAt rows n = ⟨0, 0, 0⟩ := by
  unfold summaryCountsAt
  have hnone : rows.find? (fun row => row.name == n) = none := by
    rw [List.find?_eq_none]
    intro row hrow hbeq
    rw [beq_iff_eq] at hbeq
    exact h (List.mem_map.mpr ⟨row, hrow, hbeq⟩)
  rw [hnone]

lemma priorNames_summaryAsPrior (rows : List SummaryRow) :
    priorNames (some (summaryAsPrior rows)) = rows.map (fun r => r.name) := by
  unfold priorNames summaryAsPrior
  show (rows.map (fun r =>
      (⟨r.name, r.cover, r.late, r.freeWeekends⟩ : PriorRow))).map (fun x => x.name) =
    rows.map (fun r => r.name)
  rw [List.map_map]
  rfl

lemma generate_roster_summary_nodup {interns : List String} {s e : Int}
    {prior : Option Prior} {leave : Option (List LeaveChoiceEntry)} {holidays : List Int}
    {shuffle : Nat → List (Int × Int) → List (Int × Int)} {seed : Nat}
    {res : RosterResult}
    (h : generate_roster interns s e prior leave holidays shuffle seed = some res) :
    (res.summary.map (fun r => r.name)).Nodup := by
  obtain ⟨st2, hdl, hres⟩ := generate_roster_some h
  have hfin : TouchedInv interns prior st2 :=
    dailyLoop_inv hdl
      (foldl_inv (initState_touchedInv interns prior)
        (fun st pair _ hI => offStep_touchedInv hI))
      (fun st d st' _ hI hstep => dailyStep_touchedInv hI hstep)
  subst hres
  rw [summaryOf_names]
  exact (List.perm_insertionSort _ _).nodup_iff.mpr hfin.1

end Roster

/-- Claim C8: feeding run 1's summary back as run 2's prior seeds run 2
with exactly run 1's final counters (the summary is round-trip compatible),
and run 2's final counters dominate them componentwise, so each final
counter of run 2 equals run 1's final counter plus the (non-negative)
total of the increments performed during run 2 itself. -/
theorem C8_carry_over
    {interns1 : List String} {s1 e1 : Int} {prior1 : Option Roster.Prior}
    {leave1 : Option (List Roster.LeaveChoiceEntry)} {holidays1 : List Int}
    {shuffle1 : Nat → List (Int × Int) → List (Int × Int)} {seed1 : Nat}
    {r1 : Roster.RosterResult}
    {interns2 : List String} {s2 e2 : Int}
    {leave2 : Option (List Roster.LeaveChoiceEntry)} {holidays2 : List Int}
    {shuffle2 : Nat → List (Int × Int) → List (Int × Int)} {seed2 : Nat}
    {r2 : Roster.RosterResult}
    (h1 : Roster.generate_roster interns1 s1 e1 prior1 leave1 holidays1 shuffle1 seed1 =
      some r1)
    (h2 : Roster.generate_roster interns2 s2 e2 (some (Roster.summaryAsPrior r1.summary))
      leave2 holidays2 shuffle2 seed2 = some r2) :
    ∀ name : String,
      Roster.seedCounts (some (Roster.summaryAsPrior r1.summary)) name =
        Roster.summaryCountsAt r1.summary name ∧
      Roster.CountsLE (Roster.summaryCountsAt r1.summary name)
        (Roster.summaryCountsAt r2.summary name) ∧
      (Roster.summaryCountsAt r2.summary name).cover =
        (Roster.summaryCountsAt r1.summary name).cover +
          ((Roster.summaryCountsAt r2.summary name).cover -
            (Roster.summaryCountsAt r1.summary name).cover) ∧
      (Roster.summaryCountsAt r2.summary name).late =
        (Roster.summaryCountsAt r1.summary name).late +
          ((Roster.summaryCountsAt r2.summary name).late -
            (Roster.summaryCountsAt r1.summary name).late) ∧
      (Roster.summaryCountsAt r2.summary name).free =
        (Roster.summaryCountsAt r1.summary name).free +
          ((Roster.summaryCountsAt r2.summary name).free -
            (Roster.summaryCountsAt r1.summary name).free) := by
  have hnd1 : (r1.summary.map (fun r => r.name)).Nodup :=
    Roster.generate_roster_summary_nodup h1
  obtain ⟨st2, hdl2, hres2⟩ := Roster.generate_roster_some h2
  have hcarry : Roster.CarryInv
      (Roster.seedCounts (some (Roster.summaryAsPrior r1.summary)))
      (some (Roster.summaryAsPrior r1.summary)) st2 :=
    Roster.dailyLoop_inv hdl2
      (Roster.foldl_inv (Roster.initState_carryInv (some (Roster.summaryAsPrior r1.summary)))
        (fun st pair _ hI => Roster.offStep_carryInv hI))
      (fun st d st' _ hI hstep => Roster.dailyStep_carryInv hI hstep)
  intro name
  have hseed := Roster.seedCounts_summaryAsPrior r1.summary hnd1 name
  have hB : Roster.summaryCountsAt r2.summary name =
      if name ∈ st2.touched then st2.counts name else ⟨0, 0, 0⟩ := by
    rw [hres2]
    exact Roster.summaryCountsAt_summaryOf st2 (Roster.leaveEntriesOf leave2) name
  have hLE : Roster.CountsLE (Roster.summaryCountsAt r1.summary name)
      (Roster.summaryCountsAt r2.summary name) := by
    by_cases ht : name ∈ st2.touched
    · rw [hB, if_pos ht, ← hseed]
      exact hcarry.2.1 name
    · rw [hB, if_neg ht]
      have hz1 : Roster.summaryCountsAt r1.summary name = ⟨0, 0, 0⟩ := by
        refine Roster.summaryCountsAt_not_mem ?_
        intro hmem
        refine ht (hcarry.2.2 name ?_)
        refine Roster.mem_priorTouched_of_names ?_
        rw [Roster.priorNames_summaryAsPrior]
        exact hmem
      rw [hz1]
      exact ⟨le_refl _, le_refl _, le_refl _⟩
  obtain ⟨hc, hl, hf⟩ := hLE
  exact ⟨hseed, ⟨hc, hl, hf⟩, by omega, by omega, by omega⟩

/-- Claim C8 witness: two concrete back-to-back runs of two interns; at
name "A" the seed of run 2 equals run 1's final counters and the run-2
counters decompose as run-1 counters plus the run-2 increments. -/
theorem C8_witness :
    Roster.seedCounts (some (Roster.summaryAsPrior
        [⟨"A", 1, 0, 0, "None", 24⟩, ⟨"B", 0, 1, 0, "None", 12⟩])) "A" =
      Roster.summaryCountsAt [⟨"A", 1, 0, 0, "None", 24⟩, ⟨"B", 0, 1, 0, "None", 12⟩] "A" ∧
    Roster.CountsLE
      (Roster.summaryCountsAt
        [⟨"A", 1, 0, 0, "None", 24⟩, ⟨"B", 0, 1, 0, "None", 12⟩] "A")
      (Roster.summaryCountsAt
        [⟨"A", 1, 1, 0, "None", 36⟩, ⟨"B", 1, 1, 0, "None", 36⟩] "A") ∧
    (Roster.summaryCountsAt
        [⟨"A", 1, 1, 0, "None", 36⟩, ⟨"B", 1, 1, 0, "None", 36⟩] "A").cover =
      (Roster.summaryCountsAt
        [⟨"A", 1, 0, 0, "None", 24⟩, ⟨"B", 0, 1, 0, "None", 12⟩] "A").cover +
        ((Roster.summaryCountsAt
          [⟨"A", 1, 1, 0, "None", 36⟩, ⟨"B", 1, 1, 0, "None", 36⟩] "A").cover -
          (Roster.summaryCountsAt
            [⟨"A", 1, 0, 0, "None", 24⟩, ⟨"B", 0, 1, 0, "None", 12⟩] "A").cover) ∧
    (Roster.summaryCountsAt
        [⟨"A", 1, 1, 0, "None", 36⟩, ⟨"B", 1, 1, 0, "None", 36⟩] "A").late =
      (Roster.summaryCountsAt
        [⟨"A", 1, 0, 0, "None", 24⟩, ⟨"B", 0, 1, 0, "None", 12⟩] "A").late +
        ((Roster.summaryCountsAt
          [⟨"A", 1, 1, 0, "None", 36⟩, ⟨"B", 1, 1, 0, "None", 36⟩] "A").late -
          (Roster.summaryCountsAt
            [⟨"A", 1, 0, 0, "None", 24⟩, ⟨"B", 0, 1, 0, "None", 12⟩] "A").late) ∧
    (Roster.summaryCountsAt
        [⟨"A", 1, 1, 0, "None", 36⟩, ⟨"B", 1, 1, 0, "None", 36⟩] "A").free =
      (Roster.summaryCountsAt
        [⟨"A", 1, 0, 0, "None", 24⟩, ⟨"B", 0, 1, 0, "None", 12⟩] "A").free +
        ((Roster.summaryCountsAt
          [⟨"A", 1, 1, 0, "None", 36⟩, ⟨"B", 1, 1, 0, "None", 36⟩] "A").free -
          (Roster.summaryCountsAt
            [⟨"A", 1, 0, 0, "None", 24⟩, ⟨"B", 0, 1, 0, "None", 12⟩] "A").free) :=
  @C8_carry_over ["A", "B"] 0 0 none none [] (fun _ l => l) 42
    ⟨[(0, ⟨some "A", some "B"⟩)],
      [⟨"A", 1, 0, 0, "None", 24⟩, ⟨"B", 0, 1, 0, "None", 12⟩], []⟩
    ["A", "B"] 1 1 none [] (fun _ l => l) 42
    ⟨[(1, ⟨some "B", some "A"⟩)],
      [⟨"A", 1, 1, 0, "None", 36⟩, ⟨"B", 1, 1, 0, "None", 36⟩], []⟩
    (by with_unfolding_all rfl) (by with_unfolding_all rfl) "A"
